import Mathlib

/-!
Verification of the MP3 ancillary-byte LSB steganography tool
(`steno-backend/LSB_AUDIO`): a shallow embedding of `cipher.py`,
`ancillary_data.py` and the payload-layout part of `main_pipeline.py`,
together with theorems settling the specification's claims.

Byte strings are modelled as `List Nat` (each element is a byte value,
`< 256` where a claim needs it).  Python exceptions are modelled as
`Option`/`Except` error results.
-/

/-! ### `cipher.py` -/

/-- The additive cipher loop of `vignereCipher` (`cipher.py` lines 3-9):
`output.append((input[i] + key_c) % 256)` with `key_c = key[i % len(key)]`.
The index `i` is threaded explicitly. -/
def vignereCipherGo (key : List Nat) : Nat → List Nat → List Nat
  | _, [] => []
  | i, c :: rest => ((c + key.getD (i % key.length) 0) % 256) :: vignereCipherGo key (i + 1) rest

/-- `vignereCipher(input, key)` (`cipher.py` lines 3-9).  When the key is
empty and the input is not, Python's `key[i % 0]` raises
`ZeroDivisionError`; that is modelled as `none`. -/
def vignereCipher (input key : List Nat) : Option (List Nat) :=
  if key.length = 0 ∧ input ≠ [] then none else some (vignereCipherGo key 0 input)

/-- The subtractive loop of `vignereDecipher` (`cipher.py` lines 11-17):
`output.append((input[i] - key_c) % 256)`.  Python's `%` on a negative
int yields the non-negative representative, modelled via `Int.emod`. -/
def vignereDecipherGo (key : List Nat) : Nat → List Nat → List Nat
  | _, [] => []
  | i, c :: rest =>
      ((((c : Int) - (key.getD (i % key.length) 0 : Int)) % 256).toNat) ::
        vignereDecipherGo key (i + 1) rest

/-- `vignereDecipher(input, key)` (`cipher.py` lines 11-17), `none`
modelling the `ZeroDivisionError` on an empty key. -/
def vignereDecipher (input key : List Nat) : Option (List Nat) :=
  if key.length = 0 ∧ input ≠ [] then none else some (vignereDecipherGo key 0 input)

/-- The module-level built-in key `key = b"ilovedota2"` (`cipher.py` line 1). -/
def builtin_key : List Nat := [105, 108, 111, 118, 101, 100, 111, 116, 97, 50]

/-- `generateKey(text)` (`cipher.py` lines 19-22): the UTF-8 bytes of the
passphrase enciphered under the built-in key.  The built-in key is
non-empty, so the Python call never raises and the total loop is used
directly. -/
def generateKey (text : List Nat) : List Nat := vignereCipherGo builtin_key 0 text

/-- `generateSeed(text)` (`cipher.py` lines 24-28): sum the byte values,
then return the square of the sum. -/
def generateSeed (text : List Nat) : Nat :=
  let seed := text.foldl (· + ·) 0
  seed * seed

/-! ### Bit-level utilities shared by embed/extract -/

/-- MSB-first accumulation `val = (val << 1) | bit`, as used both to pack
payload bits into a byte (`ancillary_data.py` lines 328-330) and to decode
the 32-bit length field (`int(length_bits, 2)`, line 376). -/
def bitsToNatMSB (bs : List Bool) : Nat :=
  bs.foldl (fun a b => (a <<< 1) ||| (if b then 1 else 0)) 0

/-- Little-endian binary digits, driven by a fuel argument so that the
definition is structural (any `fuel ≥ n` yields the digits of `n`). -/
def natToBitsLEAux : Nat → Nat → List Bool
  | 0, _ => []
  | fuel + 1, n => if n = 0 then [] else decide (n % 2 = 1) :: natToBitsLEAux fuel (n / 2)

/-- Little-endian binary digits of `n` (empty for `0`); helper for the
`f"{payload_length:032b}"` formatting. -/
def natToBitsLE (n : Nat) : List Bool := natToBitsLEAux n n

/-- `f"{payload_length:032b}"` (`ancillary_data.py` line 296): the binary
representation of `n`, zero-padded on the left to at least 32 digits.
For `n ≥ 2^32` Python produces more than 32 digits (no truncation), which
the `Nat` subtraction in `List.replicate` reproduces. -/
def lengthBits32 (n : Nat) : List Bool :=
  let digits := (natToBitsLE n).reverse
  List.replicate (32 - digits.length) false ++ digits

/-- The low `bits_per_byte` bits of an ancillary byte, MSB-first
(`ancillary_data.py` lines 367-370):
`val = byte & ((1 << bpb) - 1)` then `for k in reversed(range(bpb)): (val >> k) & 1`. -/
def byteLowBitsMSB (byte bits_per_byte : Nat) : List Bool :=
  let val := byte &&& ((1 <<< bits_per_byte) - 1)
  (List.range bits_per_byte).reverse.map (fun k => ((val >>> k) &&& 1) == 1)

/-- `struct.pack(">I", n)` (`main_pipeline.py` line 62): 4 big-endian bytes. -/
def packBE32 (n : Nat) : List Nat :=
  [(n >>> 24) &&& 0xFF, (n >>> 16) &&& 0xFF, (n >>> 8) &&& 0xFF, n &&& 0xFF]

/-! ### `ancillary_data.py` — MP3 parsing helpers -/

/-- `is_frame_sync(header)` (`ancillary_data.py` lines 51-52). -/
def is_frame_sync (header : List Nat) : Bool :=
  2 ≤ header.length && header.getD 0 0 == 0xFF && (header.getD 1 0 &&& 0xE0) == 0xE0

/-- Result record of `parse_header` (`ancillary_data.py` lines 108-116). -/
structure HeaderInfo where
  frame_size : Nat
  side_info_size : Nat
  mpeg_version : Nat
  layer : Nat
  channel_mode : Nat
  bitrate : Nat
  samplerate : Nat
deriving DecidableEq, Repr

/-- `bitrate_table_v1_l3` (`ancillary_data.py` line 81). -/
def bitrate_table_v1_l3 : List Nat := [0,32,40,48,56,64,80,96,112,128,160,192,224,256,320,0]

/-- `bitrate_table_v2_l3` (`ancillary_data.py` line 82). -/
def bitrate_table_v2_l3 : List Nat := [0,8,16,24,32,40,48,56,64,80,96,112,128,144,160,0]

/-- `samplerate_table_v1` (`ancillary_data.py` line 83). -/
def samplerate_table_v1 : List Nat := [44100,48000,32000,0]

/-- `samplerate_table_v2` (`ancillary_data.py` line 84). -/
def samplerate_table_v2 : List Nat := [22050,24000,16000,0]

/-- `parse_header(header)` (`ancillary_data.py` lines 54-116).  Python's
`int(144 * bitrate / samplerate)` performs float division then truncates;
for every pair drawn from the bitrate/samplerate tables the true quotient
is at least `1/48000` away from any other integer, far beyond float64
rounding error, so it coincides with `Nat` floor division. -/
def parse_header (header : List Nat) : Option HeaderInfo :=
  if header.length < 4 then none else
  let b1 := header.getD 1 0
  let b2 := header.getD 2 0
  let b3 := header.getD 3 0
  let ver_bits := (b1 >>> 3) &&& 0x03
  let mpeg_version := if ver_bits = 3 then 1 else 2
  let layer_bits := (b1 >>> 1) &&& 0x03
  if layer_bits = 0 then none else
  let layer := if layer_bits = 1 then 3 else if layer_bits = 2 then 2 else 1
  let bitrate_idx := (b2 >>> 4) &&& 0x0F
  let samplerate_idx := (b2 >>> 2) &&& 0x03
  let padding := (b2 >>> 1) &&& 0x01
  let channel_mode := (b3 >>> 6) &&& 0x03
  let bitrate :=
    (if mpeg_version = 1 ∧ layer = 3 then bitrate_table_v1_l3.getD bitrate_idx 0
     else bitrate_table_v2_l3.getD bitrate_idx 0) * 1000
  let samplerate :=
    if mpeg_version = 1 then samplerate_table_v1.getD samplerate_idx 0
    else samplerate_table_v2.getD samplerate_idx 0
  if bitrate = 0 ∨ samplerate = 0 then none else
  let frame_size :=
    if layer = 3 then
      (if mpeg_version = 1 then 144 * bitrate / samplerate + padding
       else 72 * bitrate / samplerate + padding)
    else 144 * bitrate / samplerate + padding
  let side_info_size := if channel_mode = 3 then 17 else 32
  some ⟨frame_size, side_info_size, mpeg_version, layer, channel_mode, bitrate, samplerate⟩

/-- `skip_id3v2(mp3_bytes)` (`ancillary_data.py` lines 118-124);
`b"ID3" = [73, 68, 51]`. -/
def skip_id3v2 (mp3 : List Nat) : Nat :=
  if mp3.length < 10 then 0
  else if mp3.take 3 = [73, 68, 51] then
    10 + (((mp3.getD 6 0 &&& 0x7F) <<< 21) ||| ((mp3.getD 7 0 &&& 0x7F) <<< 14) |||
          ((mp3.getD 8 0 &&& 0x7F) <<< 7) ||| (mp3.getD 9 0 &&& 0x7F))
  else 0

/-! ### `ancillary_data.py` — side-info bit parser -/

/-- `bytes_to_bitlist(barr)` (`ancillary_data.py` lines 127-132), with
bits as `Bool` instead of the ints 0/1. -/
def bytes_to_bitlist (barr : List Nat) : List Bool :=
  barr.flatMap (fun byte => (List.range 8).map (fun bitpos => ((byte >>> (7 - bitpos)) &&& 1) == 1))

/-- The nested `read(n)` of `parse_side_info_fields` (`ancillary_data.py`
lines 145-153): returns the MSB-first value of bits `[ptr, ptr+n)` and the
advanced cursor, or `none` (the `ValueError`) when fewer than `n` bits
remain. -/
def readBits (bits : List Bool) (ptr n : Nat) : Option (Nat × Nat) :=
  if bits.length < ptr + n then none
  else some (((bits.drop ptr).take n).foldl (fun a b => (a <<< 1) ||| (if b then 1 else 0)) 0,
             ptr + n)

/-- A `read(n)` whose value the source discards (the `_`-named fields that
exist only to advance the bit cursor). -/
def skipBits (bits : List Bool) (ptr n : Nat) : Option Nat :=
  (readBits bits ptr n).map Prod.snd

/-- A sequence of discarded `read` calls of the given widths. -/
def skipBitsList (bits : List Bool) : List Nat → Nat → Option Nat
  | [], ptr => some ptr
  | n :: rest, ptr => (skipBits bits ptr n).bind (skipBitsList bits rest)

/-- Per-granule per-channel fields kept by `parse_side_info_fields`
(`ancillary_data.py` line 179). -/
structure ChannelInfo where
  part2_3_length : Nat
  big_values : Nat
deriving DecidableEq, Repr

/-- Result of `parse_side_info_fields` (`ancillary_data.py` line 185). -/
structure SideInfo where
  main_data_begin : Nat
  granules : List (List ChannelInfo)
  channels : Nat
deriving DecidableEq, Repr

/-- One iteration of the channel loop of `parse_side_info_fields`
(`ancillary_data.py` lines 161-179): reads `part2_3_length` (12 bits) and
`big_values` (9 bits), then `global_gain`/`scalefac_compress` (8+4 bits)
and the `window_switching_flag` (1 bit); depending on that flag the widths
2,1,5,5,5,3,3,3,4,3 or 5,5,5,4,3,1,1,1 are read and discarded, purely to
advance the cursor, exactly as in the source. -/
def parseSideInfoChannel (bits : List Bool) (ptr : Nat) : Option (ChannelInfo × Nat) :=
  (readBits bits ptr 12).bind fun r1 =>
  (readBits bits r1.2 9).bind fun r2 =>
  (skipBitsList bits [8, 4] r2.2).bind fun p =>
  (readBits bits p 1).bind fun rw =>
  (if rw.1 ≠ 0 then skipBitsList bits [2, 1, 5, 5, 5, 3, 3, 3, 4, 3] rw.2
   else skipBitsList bits [5, 5, 5, 4, 3, 1, 1, 1] rw.2).bind fun ptr =>
  some (⟨r1.1, r2.1⟩, ptr)

/-- The `for c in range(ch)` channel loop (`ancillary_data.py` line 161). -/
def parseSideInfoChannels (bits : List Bool) : Nat → Nat → Option (List ChannelInfo × Nat)
  | 0, ptr => some ([], ptr)
  | c + 1, ptr =>
    (parseSideInfoChannel bits ptr).bind fun ci =>
    (parseSideInfoChannels bits c ci.2).bind fun rest =>
    some (ci.1 :: rest.1, rest.2)

/-- The trailing `scfsi` reads, 4 bits per channel (`ancillary_data.py`
lines 182-184); the values are discarded but a shortfall still fails the
whole parse. -/
def readScfsi (bits : List Bool) : Nat → Nat → Option Nat
  | 0, ptr => some ptr
  | c + 1, ptr => (skipBits bits ptr 4).bind (readScfsi bits c)

/-- `parse_side_info_fields(side_info_bytes)` (`ancillary_data.py`
lines 134-187): 9 bits `main_data_begin`, 3 private bits, two granules of
1 or 2 channels (mono iff the region is 17 bytes), then `scfsi`.  The
`try/except` that turns any bit-shortfall into `None` is the `Option`
failure. -/
def parse_side_info_fields (side_info_bytes : List Nat) : Option SideInfo :=
  let bits := bytes_to_bitlist side_info_bytes
  (readBits bits 0 9).bind fun rm =>
  (skipBits bits rm.2 3).bind fun ptr =>
  let ch := if side_info_bytes.length = 17 then 1 else 2
  (parseSideInfoChannels bits ch ptr).bind fun g0 =>
  (parseSideInfoChannels bits ch g0.2).bind fun g1 =>
  (readScfsi bits ch g1.2).bind fun _ptr =>
  some ⟨rm.1, [g0.1, g1.1], ch⟩

/-! ### `ancillary_data.py` — frame scanning -/

/-- One entry of the list produced by `scan_frames_for_ancillary`
(`ancillary_data.py` lines 240-252).  `ancillary_len` is an `Int` because
Python computes `(i + frame_size) - ancillary_idx`, which is negative for
frames shorter than header + side info. -/
structure FrameInfo where
  frame_index : Nat
  header_idx : Nat
  frame_start : Nat
  frame_size : Nat
  side_info_idx : Nat
  side_info_size : Nat
  main_data_idx : Nat
  estimated_main_bytes : Nat
  ancillary_idx : Nat
  ancillary_len : Int
  parsed_side_info : Option SideInfo
deriving DecidableEq, Repr

/-- The `while i < n` loop of `scan_frames_for_ancillary`
(`ancillary_data.py` lines 203-255), with an explicit fuel argument: each
iteration advances `i` by at least one byte (accepted frames have
`frame_size ≥ 12`), so fuel `n + 1` is enough for the whole scan. -/
def scanGo (mp3 : List Nat) : Nat → Nat → Nat → List FrameInfo
  | 0, _, _ => []
  | fuel + 1, i, frame_idx =>
    let n := mp3.length
    if n ≤ i then []
    else if n < i + 4 then []
    else
      let header := (mp3.drop i).take 4
      if ¬ is_frame_sync header then scanGo mp3 fuel (i + 1) frame_idx
      else
        match parse_header header with
        | none => scanGo mp3 fuel (i + 1) frame_idx
        | some info =>
          if n < i + info.frame_size then []
          else
            let side_info_bytes := (mp3.drop (i + 4)).take info.side_info_size
            let parsed := parse_side_info_fields side_info_bytes
            let estimated_bits :=
              match parsed with
              | some si => (si.granules.map (fun gr => (gr.map (·.part2_3_length)).sum)).sum
              | none => 0
            let estimated0 := (estimated_bits + 7) / 8
            let main_data_idx := i + 4 + info.side_info_size
            let max_possible_main := (i + info.frame_size) - main_data_idx
            let estimated_main_bytes :=
              if max_possible_main < estimated0 then max_possible_main else estimated0
            let ancillary_idx := main_data_idx + estimated_main_bytes
            let ancillary_len : Int := ((i + info.frame_size : Nat) : Int) - (ancillary_idx : Int)
            { frame_index := frame_idx, header_idx := i, frame_start := i,
              frame_size := info.frame_size, side_info_idx := i + 4,
              side_info_size := info.side_info_size, main_data_idx := main_data_idx,
              estimated_main_bytes := estimated_main_bytes, ancillary_idx := ancillary_idx,
              ancillary_len := ancillary_len, parsed_side_info := parsed } ::
              scanGo mp3 fuel (i + info.frame_size) (frame_idx + 1)

/-- `scan_frames_for_ancillary(mp3_bytes)` (`ancillary_data.py`
lines 190-255). -/
def scan_frames_for_ancillary (mp3 : List Nat) : List FrameInfo :=
  scanGo mp3 (mp3.length + 1) (skip_id3v2 mp3) 0


/-! ### `ancillary_data.py` — embedding and extraction -/

/-- `frames_info[start_frame:]` paired with the loop offset
`fi - start_frame`, keeping only the frames the embed/extract loops do not
`continue` past because of `(fi - start_frame) % step != 0`
(`ancillary_data.py` lines 305-307 and 355-357).  This is Python's slice
`frames_info[start_frame::step]`.  `step = 0` would raise
`ZeroDivisionError` in Python; theorems assume `0 < step`. -/
def selectedFrames (frames : List FrameInfo) (step start_frame : Nat) : List FrameInfo :=
  (((frames.drop start_frame).enum).filter (fun p => decide (p.1 % step = 0))).map Prod.snd

/-- The frames the loops actually visit: the step-selected frames minus
those skipped by `if f['ancillary_len'] <= 0: continue`
(`ancillary_data.py` lines 309-310 and 359-360). -/
def visitFrames (frames : List FrameInfo) (step start_frame : Nat) : List FrameInfo :=
  (selectedFrames frames step start_frame).filter (fun f => decide (0 < f.ancillary_len))

/-- The absolute byte indexes `abs_idx = f['ancillary_idx'] + b` visited
inside one frame (`ancillary_data.py` lines 312-315 and 361-364): `b`
ranges over `range(ancillary_len)` and the loop `break`s at the first
`abs_idx >= len(mp3_bytes)` — since the indexes increase, that break is a
`takeWhile`. -/
def frameBytePositions (f : FrameInfo) (n : Nat) : List Nat :=
  ((List.range f.ancillary_len.toNat).map (fun b => f.ancillary_idx + b)).takeWhile
    (fun p => decide (p < n))

/-- The flattened traversal order shared verbatim by
`embed_into_ancillary` and `extract_from_ancillary` (their frame/byte
loops are textually identical): each visited byte position tagged with its
frame's `frame_index` (used for the `used` bookkeeping list). -/
def ancPositions (frames : List FrameInfo) (n step start_frame : Nat) : List (Nat × Nat) :=
  (visitFrames frames step start_frame).flatMap
    (fun f => (frameBytePositions f n).map (fun p => (f.frame_index, p)))

/-- The bits of the embedded stream as read back from a buffer along a
position list: the low `bits_per_byte` bits of each visited byte,
MSB-first. -/
def readStream (mp3 : List Nat) (ps : List (Nat × Nat)) (bits_per_byte : Nat) : List Bool :=
  ps.flatMap (fun p => byteLowBitsMSB (mp3.getD p.2 0) bits_per_byte)

/-- The writing loop of `embed_into_ancillary` (`ancillary_data.py`
lines 302-340) over the flattened positions: for each byte take the next
`bits_per_byte` payload bits (zero for any index past the end), pack them
MSB-first into the low bits (`newval = (orig & mask) | val` with
`mask = (~((1 << bpb) - 1)) & 0xFF`, which for `bpb ≤ 8` equals
`0xFF ^^^ ((1 <<< bpb) - 1)`), and stop after the write that reaches the
end of the payload.  Returns the buffer, `bit_idx` and the `used` list. -/
def embedLoop (full_payload : List Bool) (bits_per_byte : Nat) :
    List Nat → List (Nat × Nat) → Nat → List (Nat × Nat × List Bool) →
    List Nat × Nat × List (Nat × Nat × List Bool)
  | mp3, [], bit_idx, used => (mp3, bit_idx, used)
  | mp3, p :: rest, bit_idx, used =>
    let orig := mp3.getD p.2 0
    let bits_collected := (List.range bits_per_byte).map (fun k => full_payload.getD (bit_idx + k) false)
    let val := bits_collected.foldl (fun a b => (a <<< 1) ||| (if b then 1 else 0)) 0
    let mask := 0xFF ^^^ ((1 <<< bits_per_byte) - 1)
    let newval := (orig &&& mask) ||| val
    let mp3' := mp3.set p.2 newval
    let bit_idx' := bit_idx + bits_per_byte
    let used' := used ++ [(p.1, p.2, bits_collected)]
    if full_payload.length ≤ bit_idx' then (mp3', bit_idx', used')
    else embedLoop full_payload bits_per_byte mp3' rest bit_idx' used'

/-- The two ways `embed_into_ancillary` raises: the
`assert bits_per_byte in (1,2,3,4)` (line 288) and the capacity
`ValueError` (line 300). -/
inductive EmbedError where
  | assertionError
  | capacityError
deriving DecidableEq, Repr

/-- The capacity pre-check accumulator of `embed_into_ancillary`
(`ancillary_data.py` lines 289-292): it sums `ancillary_len * bits_per_byte`
over ALL frames with positive ancillary length, ignoring `step` and
`start_frame`. -/
def totalCapacityBits (frames : List FrameInfo) (bits_per_byte : Nat) : Int :=
  frames.foldl
    (fun acc f => if 0 < f.ancillary_len then acc + f.ancillary_len * bits_per_byte else acc) 0

/-- `embed_into_ancillary(mp3_bytes, frames_info, payload_bits, ...)`
(`ancillary_data.py` lines 279-340).  The in-place mutation of the Python
`bytearray` is modelled by returning the new buffer alongside `bit_idx`
and `used`; a raise (assert or capacity) is an `Except.error`, and Python
raises the capacity error before the writing loop touches any byte. -/
def embed_into_ancillary (mp3 : List Nat) (frames_info : List FrameInfo)
    (payload_bits : List Bool) (bits_per_byte step start_frame : Nat) :
    Except EmbedError (List Nat × Nat × List (Nat × Nat × List Bool)) :=
  if ¬(bits_per_byte = 1 ∨ bits_per_byte = 2 ∨ bits_per_byte = 3 ∨ bits_per_byte = 4) then
    .error .assertionError
  else
    let total_capacity_bits := totalCapacityBits frames_info bits_per_byte
    let length_bits := lengthBits32 payload_bits.length
    let full_payload := length_bits ++ payload_bits
    if total_capacity_bits < (full_payload.length : Int) then .error .capacityError
    else .ok (embedLoop full_payload bits_per_byte mp3
                (ancPositions frames_info mp3.length step start_frame) 0 [])

/-- The mutable state of the extraction loop of `extract_from_ancillary`
(`ancillary_data.py` lines 349-353): the accumulated bit list (whose
length is `collected`), the decoded `payload_length` (`None` until 32 bits
have been read) and `target_bits`. -/
structure ExtSt where
  bits : List Bool
  payload_length : Option Nat
  target_bits : Nat
deriving DecidableEq, Repr

/-- One appended bit of the extraction loop (`ancillary_data.py`
lines 369-387): append, decode the 32-bit length exactly when `collected`
reaches 32, return the payload slice `bits[32:32+payload_length]` once
`collected >= target_bits`, and honour `max_bits` afterwards.  `Sum.inr`
is an early `return` from the Python function. -/
def extractStep (max_bits : Option Nat) (st : ExtSt) (bit : Bool) : ExtSt ⊕ List Bool :=
  let bits := st.bits ++ [bit]
  let collected := bits.length
  let pl_tgt :=
    if collected = 32 ∧ st.payload_length = none then
      let pl := bitsToNatMSB (bits.take 32)
      (some pl, 32 + pl)
    else (st.payload_length, st.target_bits)
  if pl_tgt.2 ≤ collected then
    .inr (match pl_tgt.1 with
          | some pl => (bits.drop 32).take pl
          | none => bits)
  else
    match max_bits with
    | some m => if m ≤ collected then .inr bits else .inl ⟨bits, pl_tgt.1, pl_tgt.2⟩
    | none => .inl ⟨bits, pl_tgt.1, pl_tgt.2⟩

/-- The `for k in reversed(range(bits_per_byte))` loop over one byte's
extracted bits, propagating an early return. -/
def extractBitsLoop (max_bits : Option Nat) : ExtSt → List Bool → ExtSt ⊕ List Bool
  | st, [] => .inl st
  | st, b :: rest =>
    match extractStep max_bits st b with
    | .inr r => .inr r
    | .inl st' => extractBitsLoop max_bits st' rest

/-- The fall-through ending of `extract_from_ancillary`
(`ancillary_data.py` lines 389-393): when the ancillary bytes run out,
return `bits[32:32+min(payload_length, len(bits)-32)]` if the length was
decoded and MORE than 32 bits were collected, otherwise the raw collected
bits (including, when exactly 32 bits were collected, the whole length
field). -/
def extractFinish (st : ExtSt) : List Bool :=
  match st.payload_length with
  | some pl =>
    if 32 < st.bits.length then (st.bits.drop 32).take (min pl (st.bits.length - 32))
    else st.bits
  | none => st.bits

/-- The frame/byte loops of `extract_from_ancillary` (`ancillary_data.py`
lines 355-393) over the flattened positions. -/
def extractGo (mp3 : List Nat) (bits_per_byte : Nat) (max_bits : Option Nat) :
    ExtSt → List (Nat × Nat) → List Bool
  | st, [] => extractFinish st
  | st, p :: ps =>
    match extractBitsLoop max_bits st (byteLowBitsMSB (mp3.getD p.2 0) bits_per_byte) with
    | .inr r => r
    | .inl st' => extractGo mp3 bits_per_byte max_bits st' ps

/-- `extract_from_ancillary(mp3_bytes, frames_info, ...)`
(`ancillary_data.py` lines 342-393). -/
def extract_from_ancillary (mp3 : List Nat) (frames_info : List FrameInfo)
    (bits_per_byte step start_frame : Nat) (max_bits : Option Nat) : List Bool :=
  extractGo mp3 bits_per_byte max_bits ⟨[], none, 32⟩
    (ancPositions frames_info mp3.length step start_frame)

/-- The specification's aggregate-capacity formula (§4.3):
`bits_per_byte * sum(ancillary_len for frames selected by step/start_frame)`,
also printed by `cmd_embed`/`embed_binary` as
`sum(f['ancillary_len'] * bits_per_byte for f in frames[start_frame::step])`. -/
def specCapacityBits (frames : List FrameInfo) (step start_frame bits_per_byte : Nat) : Int :=
  bits_per_byte * ((selectedFrames frames step start_frame).map (·.ancillary_len)).sum

/-! ### `main_pipeline.py` — orchestrator payload layout -/

/-- The two exceptions the orchestrator's `encrypt` can raise before it
reaches the embedding call: the `NameError` on `generated_key` at line 72
of `main_pipeline.py` (random embedding requested with no key, so
`generated_key` was never assigned) and the `ZeroDivisionError` from
`vignereCipher` under an empty derived key. -/
inductive PipeError where
  | nameError
  | zeroDivisionError
deriving DecidableEq, Repr

/-- The payload-layout part of `encrypt(config, audio_data, embed_data)`
(`main_pipeline.py` lines 54-74): build
`payload_data = struct.pack(">I", len(metadata_json)) + metadata_json + embed_data`,
encipher the WHOLE block under the derived key when an encryption key is
present, and choose the scramble seed `generateSeed(generated_key)` when
random embedding is requested.  `metadata_json` abstracts the UTF-8 bytes
of `json.dumps(embbedded_config)`.  Returns the `final_payload` handed to
`embed_binary` together with the `seed` argument. -/
def encryptCore (randomEmbedding : Bool) (encryptionKey : Option (List Nat))
    (metadata_json embed_data : List Nat) : Except PipeError (List Nat × Option Nat) :=
  let config_len_bytes := packBE32 metadata_json.length
  let payload_data := config_len_bytes ++ metadata_json ++ embed_data
  match encryptionKey with
  | some pw =>
    let generated_key := generateKey pw
    match vignereCipher payload_data generated_key with
    | none => .error .zeroDivisionError
    | some enc => .ok (enc, if randomEmbedding then some (generateSeed generated_key) else none)
  | none =>
    if randomEmbedding then .error .nameError
    else .ok (payload_data, none)

/-- The seed re-derivation in `decrypt` (`main_pipeline.py` lines 89-95):
`scramble_seed = generateSeed(generateKey(key))` when `is_scrambled` and a
key is present, else `None`. -/
def decryptScrambleSeed (key : Option (List Nat)) (is_scrambled : Bool) : Option Nat :=
  if is_scrambled then key.map (fun k => generateSeed (generateKey k)) else none

/-! ### Helper lemmas: MSB-first bit packing -/

theorem shiftOr_bit (a : Nat) (b : Bool) :
    (a <<< 1) ||| (if b then 1 else 0) = 2 * a + (if b then 1 else 0) := by
  cases b
  · simp [Nat.shiftLeft_eq, Nat.mul_comm]
  · show a <<< 1 ||| 1 = 2 * a + 1
    rw [Nat.shiftLeft_eq, Nat.pow_one]
    apply Nat.eq_of_testBit_eq
    intro i
    cases i with
    | zero =>
      simp [Nat.testBit_or, Nat.testBit_zero]
      omega
    | succ i =>
      have h1 : (1 : Nat) / 2 = 0 := by norm_num
      have h2 : a * 2 / 2 = a := by omega
      have h3 : (2 * a + 1) / 2 = a := by omega
      rw [Nat.testBit_or]
      simp [Nat.testBit_succ, h1, h2, h3]

theorem bitsToNatMSB_append_bit (xs : List Bool) (b : Bool) :
    bitsToNatMSB (xs ++ [b]) = 2 * bitsToNatMSB xs + (if b then 1 else 0) := by
  simp [bitsToNatMSB, List.foldl_append, shiftOr_bit]

theorem bitsToNatMSB_lt (bs : List Bool) : bitsToNatMSB bs < 2 ^ bs.length := by
  induction bs using List.reverseRecOn with
  | nil => simp [bitsToNatMSB]
  | append_singleton xs b ih =>
    rw [bitsToNatMSB_append_bit]
    simp only [List.length_append, List.length_singleton]
    have : 2 ^ (xs.length + 1) = 2 * 2 ^ xs.length := by ring
    cases b <;> simp <;> omega

theorem testBit_twoMulAdd_zero (v : Nat) (b : Bool) :
    (2 * v + (if b then 1 else 0)).testBit 0 = b := by
  cases b <;> simp [Nat.testBit_zero] <;> omega

theorem testBit_twoMulAdd_succ (v : Nat) (b : Bool) (k : Nat) :
    (2 * v + (if b then 1 else 0)).testBit (k + 1) = v.testBit k := by
  have h : (2 * v + (if b then 1 else 0)) / 2 = v := by cases b <;> simp <;> omega
  rw [Nat.testBit_succ, h]

/-- Reading the bits of `bitsToNatMSB bs` back out, MSB-first, recovers `bs`. -/
theorem testBit_range_reverse_bitsToNatMSB (bs : List Bool) :
    (List.range bs.length).reverse.map (fun k => (bitsToNatMSB bs).testBit k) = bs := by
  induction bs using List.reverseRecOn with
  | nil => simp
  | append_singleton xs b ih =>
    rw [bitsToNatMSB_append_bit]
    simp only [List.length_append, List.length_singleton]
    rw [List.range_succ_eq_map, List.reverse_cons, List.map_append, ← List.map_reverse,
        List.map_map]
    have h0 : (fun k => (2 * bitsToNatMSB xs + if b then 1 else 0).testBit k) ∘ Nat.succ
        = fun k => (bitsToNatMSB xs).testBit k := by
      funext k
      simp [Function.comp, testBit_twoMulAdd_succ]
    rw [h0, ih]
    simp only [List.map_cons, List.map_nil]
    rw [testBit_twoMulAdd_zero]

/-- `byteLowBitsMSB` only looks at the bits below `bits_per_byte`, so the
pre-masking is redundant. -/
theorem byteLowBitsMSB_eq_testBit (x bpb : Nat) :
    byteLowBitsMSB x bpb = (List.range bpb).reverse.map (fun k => x.testBit k) := by
  unfold byteLowBitsMSB
  apply List.map_congr_left
  intro k hk
  have hklt : k < bpb := by
    have := List.mem_range.mp (List.mem_reverse.mp hk)
    exact this
  have hmask : (1 <<< bpb) - 1 = 2 ^ bpb - 1 := by simp [Nat.shiftLeft_eq]
  rw [hmask]
  have : (x &&& (2 ^ bpb - 1)) >>> k &&& 1 = (x &&& (2 ^ bpb - 1)) / 2 ^ k % 2 := by
    rw [Nat.and_one_is_mod, Nat.shiftRight_eq_div_pow]
  rw [this]
  have htb : (x &&& (2 ^ bpb - 1)).testBit k = x.testBit k := by
    rw [Nat.testBit_and, Nat.testBit_two_pow_sub_one]
    simp [hklt]
  rw [← htb, Nat.testBit_to_div_mod]
  cases h : ((x &&& (2 ^ bpb - 1)) / 2 ^ k % 2 == 1) <;>
    simp_all [beq_iff_eq]

/-- Writing a chunk of `bits_per_byte` bits into the low bits of a byte
(`newval = (orig & mask) | val`) and reading them back with
`byteLowBitsMSB` recovers the chunk. -/
theorem byteLowBitsMSB_write (orig : Nat) (bs : List Bool) (bpb : Nat)
    (hlen : bs.length = bpb) (hbpb : bpb ≤ 8) :
    byteLowBitsMSB ((orig &&& (0xFF ^^^ ((1 <<< bpb) - 1))) ||| bitsToNatMSB bs) bpb = bs := by
  rw [byteLowBitsMSB_eq_testBit]
  have hmask : (1 <<< bpb) - 1 = 2 ^ bpb - 1 := by simp [Nat.shiftLeft_eq]
  have hbit : ∀ k, k < bpb →
      ((orig &&& (0xFF ^^^ ((1 <<< bpb) - 1))) ||| bitsToNatMSB bs).testBit k
        = (bitsToNatMSB bs).testBit k := by
    intro k hk
    rw [hmask, Nat.testBit_or, Nat.testBit_and, Nat.testBit_xor,
        Nat.testBit_two_pow_sub_one]
    have h255 : (0xFF : Nat) = 2 ^ 8 - 1 := by norm_num
    rw [h255, Nat.testBit_two_pow_sub_one]
    have hk8 : k < 8 := lt_of_lt_of_le hk hbpb
    simp [hk, hk8]
  calc (List.range bpb).reverse.map
        (fun k => ((orig &&& (0xFF ^^^ ((1 <<< bpb) - 1))) ||| bitsToNatMSB bs).testBit k)
      = (List.range bpb).reverse.map (fun k => (bitsToNatMSB bs).testBit k) := by
        apply List.map_congr_left
        intro k hk
        exact hbit k (List.mem_range.mp (List.mem_reverse.mp hk))
    _ = bs := by rw [← hlen]; exact testBit_range_reverse_bitsToNatMSB bs

/-! ### Helper lemmas: payload chunks and the embedding loop -/

theorem foldl_eq_bitsToNatMSB (bs : List Bool) :
    bs.foldl (fun a b => (a <<< 1) ||| (if b then 1 else 0)) 0 = bitsToNatMSB bs := rfl

theorem map_getD_range (l : List Bool) (w : Nat) :
    (List.range w).map (fun k => l.getD k false)
      = l.take w ++ List.replicate (w - l.length) false := by
  induction w with
  | zero => simp
  | succ w ih =>
    rw [List.range_succ, List.map_append, ih]
    simp only [List.map_cons, List.map_nil]
    by_cases hw : w < l.length
    · have h1 : l.getD w false = l[w] := by
        rw [List.getD_eq_getElem?_getD, List.getElem?_eq_getElem hw]
        rfl
      have h2 : l.take (w + 1) = l.take w ++ [l[w]] := by
        rw [List.take_succ, List.getElem?_eq_getElem hw]
        rfl
      have h3 : w - l.length = 0 := by omega
      have h4 : w + 1 - l.length = 0 := by omega
      rw [h1, h2, h3, h4]
      simp
    · have h1 : l.getD w false = false := by
        rw [List.getD_eq_getElem?_getD, List.getElem?_eq_none (by omega)]
        rfl
      have h2 : l.take (w + 1) = l := List.take_of_length_le (by omega)
      have h3 : l.take w = l := List.take_of_length_le (by omega)
      have h4 : w + 1 - l.length = (w - l.length) + 1 := by omega
      rw [h1, h2, h3, h4, List.replicate_succ']
      simp

theorem embedChunk_eq (full : List Bool) (i bpb : Nat) :
    (List.range bpb).map (fun k => full.getD (i + k) false)
      = (full.drop i).take bpb ++ List.replicate (bpb - (full.length - i)) false := by
  have h : ∀ k, full.getD (i + k) false = (full.drop i).getD k false := by
    intro k
    rw [List.getD_eq_getElem?_getD, List.getD_eq_getElem?_getD, List.getElem?_drop]
  calc (List.range bpb).map (fun k => full.getD (i + k) false)
      = (List.range bpb).map (fun k => (full.drop i).getD k false) := by
        apply List.map_congr_left; intro k _; exact h k
    _ = (full.drop i).take bpb ++ List.replicate (bpb - (full.drop i).length) false :=
        map_getD_range _ _
    _ = (full.drop i).take bpb ++ List.replicate (bpb - (full.length - i)) false := by
        rw [List.length_drop]

theorem newval_shiftRight (orig val bpb : Nat) (h8 : bpb ≤ 8) (ho : orig < 256)
    (hv : val < 2 ^ bpb) :
    ((orig &&& (0xFF ^^^ ((1 <<< bpb) - 1))) ||| val) >>> bpb = orig >>> bpb := by
  have hmask : (1 <<< bpb) - 1 = 2 ^ bpb - 1 := by simp [Nat.shiftLeft_eq]
  have h255 : (0xFF : Nat) = 2 ^ 8 - 1 := by norm_num
  apply Nat.eq_of_testBit_eq
  intro k
  rw [Nat.testBit_shiftRight, Nat.testBit_shiftRight, Nat.testBit_or, Nat.testBit_and,
      hmask, h255, Nat.testBit_xor, Nat.testBit_two_pow_sub_one, Nat.testBit_two_pow_sub_one]
  have hval : val.testBit (bpb + k) = false :=
    Nat.testBit_lt_two_pow (lt_of_lt_of_le hv (Nat.pow_le_pow_right (by norm_num) (by omega)))
  have hnotbpb : ¬ (bpb + k < bpb) := by omega
  by_cases hk8 : bpb + k < 8
  · simp [hval, hk8, hnotbpb]
  · have horig : orig.testBit (bpb + k) = false := by
      apply Nat.testBit_lt_two_pow
      calc orig < 256 := ho
        _ = 2 ^ 8 := by norm_num
        _ ≤ 2 ^ (bpb + k) := Nat.pow_le_pow_right (by norm_num) (by omega)
    simp [hval, hk8, hnotbpb, horig]

theorem newval_lt_256 (orig val bpb : Nat) (h8 : bpb ≤ 8) (ho : orig < 256)
    (hv : val < 2 ^ bpb) :
    ((orig &&& (0xFF ^^^ ((1 <<< bpb) - 1))) ||| val) < 256 := by
  have hle : (orig &&& (0xFF ^^^ ((1 <<< bpb) - 1))) ≤ orig := Nat.and_le_left
  have h256 : (2 : Nat) ^ 8 = 256 := by norm_num
  have h1 : (orig &&& (0xFF ^^^ ((1 <<< bpb) - 1))) < 2 ^ 8 := by omega
  have h2 : val < 2 ^ 8 := lt_of_lt_of_le hv (Nat.pow_le_pow_right (by norm_num) h8)
  have h3 := Nat.or_lt_two_pow h1 h2
  omega

theorem getD_set_ne (B : List Nat) (i j : Nat) (v : Nat) (h : i ≠ j) :
    (B.set i v).getD j 0 = B.getD j 0 := by
  rw [List.getD_eq_getElem?_getD, List.getD_eq_getElem?_getD, List.getElem?_set_ne h]

theorem embedLoop_length (full : List Bool) (bpb : Nat) (ps : List (Nat × Nat)) :
    ∀ (B : List Nat) (i : Nat) (used : List (Nat × Nat × List Bool)),
      (embedLoop full bpb B ps i used).1.length = B.length := by
  induction ps with
  | nil => intro B i used; rfl
  | cons p rest ih =>
    intro B i used
    simp only [embedLoop]
    split
    · simp [List.length_set]
    · rw [ih]
      simp [List.length_set]

theorem embedLoop_getD_of_not_mem (full : List Bool) (bpb : Nat) (ps : List (Nat × Nat)) :
    ∀ (B : List Nat) (i : Nat) (used : List (Nat × Nat × List Bool)) (j : Nat),
      j ∉ ps.map Prod.snd →
      (embedLoop full bpb B ps i used).1.getD j 0 = B.getD j 0 := by
  induction ps with
  | nil => intro B i used j _; rfl
  | cons p rest ih =>
    intro B i used j hj
    simp only [List.map_cons, List.mem_cons, not_or] at hj
    simp only [embedLoop]
    split
    · exact getD_set_ne B p.2 j _ (fun h => hj.1 h.symm)
    · rw [ih _ _ _ _ hj.2]
      exact getD_set_ne B p.2 j _ (fun h => hj.1 h.symm)

theorem getD_set_self (B : List Nat) (i v : Nat) (h : i < B.length) :
    (B.set i v).getD i 0 = v := by
  rw [List.getD_eq_getElem?_getD, List.getElem?_set_self h]
  rfl

theorem chunkVal_lt (full : List Bool) (i bpb : Nat) :
    bitsToNatMSB ((List.range bpb).map (fun k => full.getD (i + k) false)) < 2 ^ bpb := by
  have h := bitsToNatMSB_lt ((List.range bpb).map (fun k => full.getD (i + k) false))
  simpa using h

theorem embedLoop_shiftRight (full : List Bool) (bpb : Nat) (h8 : bpb ≤ 8)
    (ps : List (Nat × Nat)) :
    ∀ (B : List Nat) (i : Nat) (used : List (Nat × Nat × List Bool)),
      (∀ b ∈ B, b < 256) →
      ∀ j, (embedLoop full bpb B ps i used).1.getD j 0 >>> bpb = B.getD j 0 >>> bpb := by
  induction ps with
  | nil => intro B i used _ j; rfl
  | cons p rest ih =>
    intro B i used hB j
    by_cases hp : p.2 < B.length
    · have horig : B.getD p.2 0 < 256 := by
        have : B.getD p.2 0 = B[p.2] := by
          rw [List.getD_eq_getElem?_getD, List.getElem?_eq_getElem hp]; rfl
        rw [this]
        exact hB _ (List.getElem_mem hp)
      have hval := chunkVal_lt full i bpb
      have hstep : ∀ j, (B.set p.2 ((B.getD p.2 0 &&& (0xFF ^^^ ((1 <<< bpb) - 1))) |||
          ((List.range bpb).map (fun k => full.getD (i + k) false)).foldl
            (fun a b => (a <<< 1) ||| (if b then 1 else 0)) 0)).getD j 0 >>> bpb
          = B.getD j 0 >>> bpb := by
        intro j
        by_cases hj : j = p.2
        · subst hj
          rw [getD_set_self _ _ _ hp, foldl_eq_bitsToNatMSB]
          exact newval_shiftRight _ _ _ h8 horig hval
        · rw [getD_set_ne _ _ _ _ (fun h => hj h.symm)]
      have hB' : ∀ b ∈ B.set p.2 ((B.getD p.2 0 &&& (0xFF ^^^ ((1 <<< bpb) - 1))) |||
          ((List.range bpb).map (fun k => full.getD (i + k) false)).foldl
            (fun a b => (a <<< 1) ||| (if b then 1 else 0)) 0), b < 256 := by
        intro b hb
        rcases List.mem_or_eq_of_mem_set hb with h | h
        · exact hB _ h
        · subst h
          rw [foldl_eq_bitsToNatMSB]
          exact newval_lt_256 _ _ _ h8 horig hval
      simp only [embedLoop]
      split
      · exact hstep j
      · rw [ih _ _ _ hB' j]
        exact hstep j
    · have hset : B.set p.2 ((B.getD p.2 0 &&& (0xFF ^^^ ((1 <<< bpb) - 1))) |||
          ((List.range bpb).map (fun k => full.getD (i + k) false)).foldl
            (fun a b => (a <<< 1) ||| (if b then 1 else 0)) 0) = B :=
        List.set_eq_of_length_le (by omega)
      simp only [embedLoop]
      split
      · rw [hset]
      · rw [hset, ih _ _ _ hB j]

/-- The central embedding lemma: after `embedLoop` runs from bit cursor
`i` over distinct in-bounds positions with enough aggregate bit capacity,
reading the low bits back along the same positions yields the remaining
payload `full.drop i` as a prefix. -/
theorem embedLoop_readStream (full : List Bool) (bpb : Nat) (h8 : bpb ≤ 8)
    (ps : List (Nat × Nat)) :
    ∀ (B : List Nat) (i : Nat) (used : List (Nat × Nat × List Bool)),
      (ps.map Prod.snd).Nodup →
      (∀ p ∈ ps, p.2 < B.length) →
      full.length ≤ i + bpb * ps.length →
      (readStream (embedLoop full bpb B ps i used).1 ps bpb).take (full.length - i)
        = full.drop i := by
  induction ps with
  | nil =>
    intro B i used _ _ hcap
    simp only [List.length_nil, Nat.mul_zero, Nat.add_zero] at hcap
    have h1 : full.length - i = 0 := by omega
    have h2 : full.drop i = [] := List.drop_eq_nil_of_le hcap
    simp [readStream, h1, h2]
  | cons p rest ih =>
    intro B i used hnodup hbound hcap
    simp only [List.map_cons, List.nodup_cons] at hnodup
    have hp : p.2 < B.length := hbound p (List.mem_cons_self p rest)
    by_cases hi : full.length ≤ i
    · have h1 : full.length - i = 0 := by omega
      have h2 : full.drop i = [] := List.drop_eq_nil_of_le hi
      simp [h1, h2]
    · push_neg at hi
      have hchunk := embedChunk_eq full i bpb
      have hchunklen : ((List.range bpb).map (fun k => full.getD (i + k) false)).length = bpb := by
        simp
      have hwrite : byteLowBitsMSB ((B.getD p.2 0 &&& (0xFF ^^^ ((1 <<< bpb) - 1))) |||
          ((List.range bpb).map (fun k => full.getD (i + k) false)).foldl
            (fun a b => (a <<< 1) ||| (if b then 1 else 0)) 0) bpb
          = (List.range bpb).map (fun k => full.getD (i + k) false) := by
        rw [foldl_eq_bitsToNatMSB]
        exact byteLowBitsMSB_write _ _ _ hchunklen h8
      simp only [embedLoop]
      split
      · next hstop =>
        -- payload exhausted by this write: result buffer is `B.set`
        simp only [readStream, List.flatMap_cons]
        rw [getD_set_self _ _ _ hp, hwrite, hchunk]
        have hlen_drop : (full.drop i).length = full.length - i := List.length_drop i full
        have hle : full.length - i ≤ bpb := by omega
        have htake1 : full.take (full.length) = full := List.take_of_length_le (le_refl _)
        have hdtake : (full.drop i).take bpb = full.drop i :=
          List.take_of_length_le (by omega)
        rw [hdtake, List.append_assoc]
        exact List.take_left' hlen_drop
      · next hmore =>
        push_neg at hmore
        have hnext : full.length ≤ (i + bpb) + bpb * rest.length := by
          simp only [List.length_cons, Nat.mul_succ] at hcap
          omega
        have hB'len : (B.set p.2 ((B.getD p.2 0 &&& (0xFF ^^^ ((1 <<< bpb) - 1))) |||
            ((List.range bpb).map (fun k => full.getD (i + k) false)).foldl
              (fun a b => (a <<< 1) ||| (if b then 1 else 0)) 0)).length = B.length :=
          List.length_set B _ _
        have hIH := ih _ (i + bpb) (used ++ [(p.1, p.2,
            (List.range bpb).map (fun k => full.getD (i + k) false))]) hnodup.2
          (by intro q hq; rw [hB'len]; exact hbound q (List.mem_cons_of_mem p hq)) hnext
        simp only [readStream, List.flatMap_cons]
        have hgetD : (embedLoop full bpb (B.set p.2 ((B.getD p.2 0 &&&
            (0xFF ^^^ ((1 <<< bpb) - 1))) |||
            ((List.range bpb).map (fun k => full.getD (i + k) false)).foldl
              (fun a b => (a <<< 1) ||| (if b then 1 else 0)) 0)) rest (i + bpb)
            (used ++ [(p.1, p.2, (List.range bpb).map (fun k => full.getD (i + k) false))])).1.getD
              p.2 0
            = (B.getD p.2 0 &&& (0xFF ^^^ ((1 <<< bpb) - 1))) |||
              ((List.range bpb).map (fun k => full.getD (i + k) false)).foldl
                (fun a b => (a <<< 1) ||| (if b then 1 else 0)) 0 := by
          rw [embedLoop_getD_of_not_mem full bpb rest _ _ _ _ hnodup.1]
          exact getD_set_self _ _ _ hp
        have hrep : bpb - (full.length - i) = 0 := by omega
        have hchunk2 : (List.range bpb).map (fun k => full.getD (i + k) false)
            = (full.drop i).take bpb := by
          rw [hchunk, hrep]
          simp
        rw [hgetD, hwrite, hchunk2]
        simp only [readStream] at hIH
        rw [hchunk2] at hIH
        have hchlen : ((full.drop i).take bpb).length = bpb := by
          rw [List.length_take, List.length_drop]
          omega
        rw [List.take_append_eq_append_take, hchlen,
            List.take_of_length_le (by rw [hchlen]; omega)]
        have harith : full.length - i - bpb = full.length - (i + bpb) := by omega
        rw [harith, hIH]
        have hdd : (full.drop i).drop bpb = full.drop (i + bpb) := List.drop_drop bpb i full
        rw [← hdd, List.take_append_drop]

/-! ### Helper lemmas: the extraction state machine -/

theorem extractBitsLoop_append (mb : Option Nat) (a : List Bool) :
    ∀ (st : ExtSt) (b : List Bool),
      extractBitsLoop mb st (a ++ b) =
        match extractBitsLoop mb st a with
        | .inr r => .inr r
        | .inl st' => extractBitsLoop mb st' b := by
  induction a with
  | nil => intro st b; rfl
  | cons x xs ih =>
    intro st b
    simp only [List.cons_append, extractBitsLoop]
    cases extractStep mb st x with
    | inr r => rfl
    | inl st' => exact ih st' b

/-- Processing the flattened byte stream is the same as running the pure
bit machine over the concatenated low-bit stream, with the fall-through
ending applied if no early return fires. -/
theorem extractGo_eq_loop (mp3 : List Nat) (bpb : Nat) (mb : Option Nat) :
    ∀ (ps : List (Nat × Nat)) (st : ExtSt),
      extractGo mp3 bpb mb st ps =
        match extractBitsLoop mb st (readStream mp3 ps bpb) with
        | .inr r => r
        | .inl st' => extractFinish st' := by
  intro ps
  induction ps with
  | nil => intro st; rfl
  | cons p rest ih =>
    intro st
    simp only [extractGo, readStream, List.flatMap_cons]
    rw [extractBitsLoop_append]
    cases h : extractBitsLoop mb st (byteLowBitsMSB (mp3.getD p.2 0) bpb) with
    | inr r => rfl
    | inl st' =>
      exact ih st' 

/-- The state of the extraction loop after consuming the bit list `T`
without returning: the accumulated bits are `T`, and the length field is
decoded as soon as 32 bits are in. -/
def reachedState (T : List Bool) : ExtSt :=
  ⟨T, if 32 ≤ T.length then some (bitsToNatMSB (T.take 32)) else none,
      if 32 ≤ T.length then 32 + bitsToNatMSB (T.take 32) else 32⟩

theorem reachedState_bits (T : List Bool) : (reachedState T).bits = T := rfl

theorem extractStep_reached_small (T : List Bool) (b : Bool)
    (h : (T ++ [b]).length < 32) :
    extractStep none (reachedState T) b = .inl (reachedState (T ++ [b])) := by
  have hlen : (T ++ [b]).length = T.length + 1 := by simp
  have h1 : ¬ 32 ≤ T.length := by omega
  have h2 : ¬ 32 ≤ T.length + 1 := by omega
  have h3 : ¬ (T.length + 1 = 32) := by omega
  simp only [extractStep, reachedState, hlen, h1, h2, h3, if_false, false_and, if_neg,
    not_false_iff]

theorem extractStep_reached_mid (T : List Bool) (b : Bool)
    (hT : T.length < (reachedState T).target_bits)
    (h32 : 32 ≤ (T ++ [b]).length)
    (h : (T ++ [b]).length < 32 + bitsToNatMSB ((T ++ [b]).take 32)) :
    extractStep none (reachedState T) b = .inl (reachedState (T ++ [b])) := by
  have hlen : (T ++ [b]).length = T.length + 1 := by simp
  by_cases hTge : 32 ≤ T.length
  · have htake : (T ++ [b]).take 32 = T.take 32 := List.take_append_of_le_length (by omega)
    have h3 : ¬ (T.length + 1 = 32) := by omega
    simp only [extractStep, reachedState, hTge, if_true, hlen, h3, false_and, if_neg,
      not_false_iff] at hT ⊢
    rw [htake] at h
    rw [hlen] at h
    have h4 : ¬ (32 + bitsToNatMSB (T.take 32) ≤ T.length + 1) := by omega
    have h5 : (32 : Nat) ≤ T.length + 1 := by omega
    simp [h4, h5, htake]
  · -- the appended bit completes the length field exactly
    have h3 : T.length + 1 = 32 := by omega
    simp only [extractStep, reachedState, hTge, if_false, hlen, h3, and_true, if_pos, and_self]
    rw [hlen] at h
    rw [h3] at h
    have h4 : ¬ (32 + bitsToNatMSB ((T ++ [b]).take 32) ≤ 32) := by omega
    have h5 : (32 : Nat) ≤ 32 := le_refl 32
    simp [h4, h5]

theorem extractStep_reached_done (T : List Bool) (b : Bool)
    (hT : T.length < (reachedState T).target_bits)
    (h32 : 32 ≤ (T ++ [b]).length)
    (h : 32 + bitsToNatMSB ((T ++ [b]).take 32) ≤ (T ++ [b]).length) :
    extractStep none (reachedState T) b
      = .inr (((T ++ [b]).drop 32).take (bitsToNatMSB ((T ++ [b]).take 32))) := by
  have hlen : (T ++ [b]).length = T.length + 1 := by simp
  by_cases hTge : 32 ≤ T.length
  · have htake : (T ++ [b]).take 32 = T.take 32 := List.take_append_of_le_length (by omega)
    have h3 : ¬ (T.length + 1 = 32) := by omega
    simp only [extractStep, reachedState, hTge, if_true, hlen, h3, false_and, if_neg,
      not_false_iff] at hT ⊢
    rw [htake] at h
    rw [hlen] at h
    have h4 : 32 + bitsToNatMSB (T.take 32) ≤ T.length + 1 := h
    simp [h4, htake]
  · have h3 : T.length + 1 = 32 := by omega
    simp only [extractStep, reachedState, hTge, if_false, hlen, h3, and_true, if_pos, and_self]
    rw [hlen, h3] at h
    simp [h]

/-- Running the bit machine from a reached state over the remaining
stream: it keeps accumulating while fewer than `32 + decoded-length` bits
are in, and returns the payload slice the moment the target is reached. -/
theorem extractBitsLoop_reached (R : List Bool) :
    ∀ T : List Bool, T.length < (reachedState T).target_bits →
      extractBitsLoop none (reachedState T) R =
        if (T ++ R).length < 32 ∨ (T ++ R).length < 32 + bitsToNatMSB ((T ++ R).take 32) then
          .inl (reachedState (T ++ R))
        else .inr (((T ++ R).drop 32).take (bitsToNatMSB ((T ++ R).take 32))) := by
  induction R with
  | nil =>
    intro T hT
    rw [List.append_nil]
    rw [if_pos]
    · rfl
    · by_cases h32 : 32 ≤ T.length
      · right
        have : (reachedState T).target_bits = 32 + bitsToNatMSB (T.take 32) := by
          simp [reachedState, h32]
        omega
      · left; omega
  | cons b R' ih =>
    intro T hT
    show (match extractStep none (reachedState T) b with
          | Sum.inr r => Sum.inr r
          | Sum.inl st' => extractBitsLoop none st' R') = _
    by_cases h1 : (T ++ [b]).length < 32
    · rw [extractStep_reached_small T b h1]
      have hinv : (T ++ [b]).length < (reachedState (T ++ [b])).target_bits := by
        have hn : ¬ 32 ≤ (T ++ [b]).length := by omega
        simp only [reachedState, if_neg hn]
        omega
      show extractBitsLoop none (reachedState (T ++ [b])) R' = _
      rw [ih (T ++ [b]) hinv, List.append_assoc, List.singleton_append]
    · push_neg at h1
      by_cases h2 : (T ++ [b]).length < 32 + bitsToNatMSB ((T ++ [b]).take 32)
      · rw [extractStep_reached_mid T b hT h1 h2]
        have hinv : (T ++ [b]).length < (reachedState (T ++ [b])).target_bits := by
          simp only [reachedState, if_pos h1]
          exact h2
        show extractBitsLoop none (reachedState (T ++ [b])) R' = _
        rw [ih (T ++ [b]) hinv, List.append_assoc, List.singleton_append]
      · push_neg at h2
        rw [extractStep_reached_done T b hT h1 h2]
        have hTbR : T ++ b :: R' = (T ++ [b]) ++ R' := by simp
        have htake : (T ++ b :: R').take 32 = (T ++ [b]).take 32 := by
          rw [hTbR]
          exact List.take_append_of_le_length h1
        have hd : (T ++ b :: R').drop 32 = (T ++ [b]).drop 32 ++ R' := by
          rw [hTbR]
          exact List.drop_append_of_le_length (by omega)
        have hcond : ¬ ((T ++ b :: R').length < 32 ∨
            (T ++ b :: R').length < 32 + bitsToNatMSB ((T ++ b :: R').take 32)) := by
          rw [htake, hTbR, List.length_append]
          push_neg
          constructor <;> omega
        rw [if_neg hcond, htake, hd,
            @List.take_append_of_le_length Bool ((T ++ [b]).drop 32) R'
              (bitsToNatMSB ((T ++ [b]).take 32)) (by rw [List.length_drop]; omega)]
/-- Full characterization of `extract_from_ancillary` with `max_bits = None`
(the way every caller in the repository invokes it), as a function of the
low-bit stream `S` of the traversed ancillary bytes: fewer than 32 bits
give back the raw bits; exactly 32 bits with a positive decoded length
give back the whole 32-bit length field; otherwise the result is the
`min(declared, available)`-bit payload slice after the 32-bit field. -/
theorem extract_from_ancillary_eq (mp3 : List Nat) (frames_info : List FrameInfo)
    (bits_per_byte step start_frame : Nat) :
    extract_from_ancillary mp3 frames_info bits_per_byte step start_frame none =
      (if (readStream mp3 (ancPositions frames_info mp3.length step start_frame)
            bits_per_byte).length < 32 then
        readStream mp3 (ancPositions frames_info mp3.length step start_frame) bits_per_byte
       else if (readStream mp3 (ancPositions frames_info mp3.length step start_frame)
            bits_per_byte).length = 32 ∧
          0 < bitsToNatMSB ((readStream mp3 (ancPositions frames_info mp3.length step start_frame)
            bits_per_byte).take 32) then
        readStream mp3 (ancPositions frames_info mp3.length step start_frame) bits_per_byte
       else ((readStream mp3 (ancPositions frames_info mp3.length step start_frame)
            bits_per_byte).drop 32).take
          (bitsToNatMSB ((readStream mp3 (ancPositions frames_info mp3.length step start_frame)
            bits_per_byte).take 32))) := by
  have hinit : (⟨[], none, 32⟩ : ExtSt) = reachedState [] := by simp [reachedState]
  unfold extract_from_ancillary
  rw [extractGo_eq_loop, hinit,
      extractBitsLoop_reached _ [] (by simp [reachedState])]
  rw [List.nil_append]
  set S := readStream mp3 (ancPositions frames_info mp3.length step start_frame) bits_per_byte
    with hS
  set L := bitsToNatMSB (S.take 32) with hL
  by_cases hc : S.length < 32 ∨ S.length < 32 + L
  · rw [if_pos hc]
    rcases hc with hlt | hmid
    · show extractFinish (reachedState S) = _
      have h32 : ¬ 32 ≤ S.length := by omega
      simp only [extractFinish, reachedState, h32, if_false]
      rw [if_pos hlt]
    · show extractFinish (reachedState S) = _
      by_cases hlt : S.length < 32
      · have h32 : ¬ 32 ≤ S.length := by omega
        simp only [extractFinish, reachedState, h32, if_false]
        rw [if_pos hlt]
      · push_neg at hlt
        simp only [extractFinish, reachedState, hlt, if_true, ← hL]
        by_cases hgt : 32 < S.length
        · rw [if_pos hgt, if_neg (by omega), if_neg (by push_neg; intro h; omega)]
          have hmin : min L (S.length - 32) = S.length - 32 := by omega
          rw [hmin, List.take_of_length_le (by rw [List.length_drop]),
              List.take_of_length_le (by rw [List.length_drop]; omega)]
        · have heq : S.length = 32 := by omega
          rw [if_neg hgt, if_neg (by omega), if_pos ⟨heq, by omega⟩]
  · push_neg at hc
    rw [if_neg (by push_neg; exact hc)]
    show (S.drop 32).take L = _
    rw [if_neg (by omega), if_neg (by push_neg; intro h; omega)]

/-! ### Helper lemmas: positions, capacities -/

theorem foldl_if_add_eq (bpb : Nat) (l : List FrameInfo) :
    ∀ c : Int,
      l.foldl (fun acc f => if 0 < f.ancillary_len then acc + f.ancillary_len * (bpb : Int)
        else acc) c
        = c + ((l.filter (fun f => decide (0 < f.ancillary_len))).map
            (fun f => f.ancillary_len * (bpb : Int))).sum := by
  induction l with
  | nil => intro c; simp
  | cons f rest ih =>
    intro c
    by_cases h : 0 < f.ancillary_len
    · simp only [List.foldl_cons, if_pos h, ih, List.filter_cons, decide_eq_true_eq, h,
        if_true, List.map_cons, List.sum_cons]
      ring
    · simp only [List.foldl_cons, if_neg h, ih, List.filter_cons, decide_eq_true_eq, h,
        if_false]

theorem totalCapacityBits_eq (frames : List FrameInfo) (bpb : Nat) :
    totalCapacityBits frames bpb
      = ((frames.filter (fun f => decide (0 < f.ancillary_len))).map
          (fun f => f.ancillary_len * (bpb : Int))).sum := by
  unfold totalCapacityBits
  rw [foldl_if_add_eq]
  simp

theorem selectedFrames_sublist (frames : List FrameInfo) (step start_frame : Nat) :
    (selectedFrames frames step start_frame).Sublist frames := by
  unfold selectedFrames
  have h1 : (((frames.drop start_frame).enum.filter
      (fun p => decide (p.1 % step = 0))).map Prod.snd).Sublist
      ((frames.drop start_frame).enum.map Prod.snd) :=
    List.Sublist.map Prod.snd (List.filter_sublist _)
  rw [List.enum_map_snd] at h1
  exact h1.trans (List.drop_sublist start_frame frames)

theorem visitFrames_sublist_selected (frames : List FrameInfo) (step start_frame : Nat) :
    (visitFrames frames step start_frame).Sublist (selectedFrames frames step start_frame) :=
  List.filter_sublist _

theorem visitFrames_pos (frames : List FrameInfo) (step start_frame : Nat) :
    ∀ f ∈ visitFrames frames step start_frame, 0 < f.ancillary_len := by
  intro f hf
  have := List.of_mem_filter hf
  simpa using this

theorem frameBytePositions_of_inbounds (f : FrameInfo) (n : Nat)
    (h : f.ancillary_idx + f.ancillary_len.toNat ≤ n) :
    frameBytePositions f n = (List.range f.ancillary_len.toNat).map (fun b => f.ancillary_idx + b) := by
  unfold frameBytePositions
  apply List.takeWhile_eq_self_iff.mpr
  intro x hx
  rcases List.mem_map.mp hx with ⟨b, hb, rfl⟩
  have := List.mem_range.mp hb
  simp only [decide_eq_true_eq]
  omega

theorem frameBytePositions_lt (f : FrameInfo) (n : Nat) :
    ∀ p ∈ frameBytePositions f n, p < n := by
  intro p hp
  have := List.mem_takeWhile_imp hp
  simpa using this

theorem ancPositions_lt (frames : List FrameInfo) (n step start_frame : Nat) :
    ∀ p ∈ ancPositions frames n step start_frame, p.2 < n := by
  intro p hp
  unfold ancPositions at hp
  rcases List.mem_flatMap.mp hp with ⟨f, _, hmem⟩
  rcases List.mem_map.mp hmem with ⟨q, hq, rfl⟩
  exact frameBytePositions_lt f n q hq

theorem ancPositions_length (frames : List FrameInfo) (n step start_frame : Nat)
    (hinb : ∀ f ∈ frames, f.ancillary_idx + f.ancillary_len.toNat ≤ n) :
    (ancPositions frames n step start_frame).length
      = ((visitFrames frames step start_frame).map (fun f => f.ancillary_len.toNat)).sum := by
  unfold ancPositions
  rw [List.length_flatMap]
  congr 1
  apply List.map_congr_left
  intro f hf
  have hmem : f ∈ frames :=
    (visitFrames_sublist_selected frames step start_frame).subset.trans
      (selectedFrames_sublist frames step start_frame).subset hf
  simp only [Function.comp]
  rw [frameBytePositions_of_inbounds f n (hinb f hmem)]
  simp

theorem sum_le_sum_of_sublist_int (l₁ l₂ : List Int) (h : l₁.Sublist l₂)
    (hnn : ∀ x ∈ l₂, 0 ≤ x) : l₁.sum ≤ l₂.sum := by
  induction h with
  | slnil => simp
  | cons a h ih =>
    simp only [List.sum_cons]
    have ha := hnn a (List.mem_cons_self _ _)
    have := ih (fun x hx => hnn x (List.mem_cons_of_mem a hx))
    omega
  | cons₂ a h ih =>
    simp only [List.sum_cons]
    have := ih (fun x hx => hnn x (List.mem_cons_of_mem a hx))
    omega

/-! ### Helper lemmas: the 32-bit length field -/

theorem natToBitsLEAux_stable : ∀ (f1 n f2 : Nat), n ≤ f1 → n ≤ f2 →
    natToBitsLEAux f1 n = natToBitsLEAux f2 n := by
  intro f1
  induction f1 with
  | zero =>
    intro n f2 h1 _
    have hn : n = 0 := by omega
    subst hn
    cases f2 with
    | zero => rfl
    | succ g => simp [natToBitsLEAux]
  | succ f ih =>
    intro n f2 h1 h2
    by_cases hn : n = 0
    · subst hn
      cases f2 with
      | zero => rfl
      | succ g => simp [natToBitsLEAux]
    · obtain ⟨g, rfl⟩ : ∃ g, f2 = g + 1 := ⟨f2 - 1, by omega⟩
      simp only [natToBitsLEAux, if_neg hn]
      congr 1
      have hd : n / 2 < n := Nat.div_lt_self (by omega) (by omega)
      exact ih (n / 2) g (by omega) (by omega)

theorem natToBitsLE_eq_cons (n : Nat) (h : n ≠ 0) :
    natToBitsLE n = decide (n % 2 = 1) :: natToBitsLE (n / 2) := by
  obtain ⟨m, rfl⟩ : ∃ m, n = m + 1 := ⟨n - 1, by omega⟩
  show natToBitsLEAux (m + 1) (m + 1) = _
  simp only [natToBitsLEAux, if_neg h]
  congr 1
  have hd : (m + 1) / 2 < m + 1 := Nat.div_lt_self (by omega) (by omega)
  exact natToBitsLEAux_stable m ((m + 1) / 2) ((m + 1) / 2) (by omega) (le_refl _)

theorem bitsToNatMSB_natToBitsLE_reverse (n : Nat) :
    bitsToNatMSB (natToBitsLE n).reverse = n := by
  induction n using Nat.strong_induction_on with
  | _ n ih =>
    by_cases hn : n = 0
    · subst hn
      rfl
    · rw [natToBitsLE_eq_cons n hn, List.reverse_cons, bitsToNatMSB_append_bit,
        ih (n / 2) (Nat.div_lt_self (by omega) (by omega))]
      rcases Nat.mod_two_eq_zero_or_one n with h | h <;> simp [h] <;> omega

theorem natToBitsLE_length_le : ∀ (k n : Nat), n < 2 ^ k → (natToBitsLE n).length ≤ k := by
  intro k
  induction k with
  | zero =>
    intro n h
    have hn : n = 0 := by simpa using h
    subst hn
    simp [natToBitsLE, natToBitsLEAux]
  | succ k ih =>
    intro n h
    by_cases hn : n = 0
    · subst hn
      simp [natToBitsLE, natToBitsLEAux]
    · rw [natToBitsLE_eq_cons n hn]
      simp only [List.length_cons]
      have hhalf : n / 2 < 2 ^ k := by
        have h2 : 2 ^ (k + 1) = 2 * 2 ^ k := by ring
        omega
      exact Nat.succ_le_succ (ih _ hhalf)

theorem bitsToNatMSB_replicate_false (k : Nat) (bs : List Bool) :
    bitsToNatMSB (List.replicate k false ++ bs) = bitsToNatMSB bs := by
  induction k with
  | zero => simp
  | succ k ih =>
    rw [List.replicate_succ, List.cons_append]
    show bitsToNatMSB (false :: (List.replicate k false ++ bs)) = _
    unfold bitsToNatMSB
    simp only [List.foldl_cons]
    exact ih

theorem lengthBits32_length (n : Nat) (h : n < 2 ^ 32) : (lengthBits32 n).length = 32 := by
  have hle : (natToBitsLE n).length ≤ 32 := natToBitsLE_length_le 32 n h
  simp only [lengthBits32, List.length_append, List.length_replicate, List.length_reverse]
  omega

theorem bitsToNatMSB_lengthBits32 (n : Nat) : bitsToNatMSB (lengthBits32 n) = n := by
  unfold lengthBits32
  rw [bitsToNatMSB_replicate_false, bitsToNatMSB_natToBitsLE_reverse]

/-! ### Helper lemmas: capacity comparisons -/

theorem mul_sum_map_anc (c : Int) (l : List FrameInfo) :
    c * (l.map (·.ancillary_len)).sum = (l.map (fun f => f.ancillary_len * c)).sum := by
  induction l with
  | nil => simp
  | cons f rest ih =>
    simp only [List.map_cons, List.sum_cons]
    rw [← ih]
    ring

theorem sum_map_filter_pos (c : Int) (l : List FrameInfo)
    (hnn : ∀ f ∈ l, 0 ≤ f.ancillary_len) :
    (l.map (fun f => f.ancillary_len * c)).sum
      = ((l.filter (fun f => decide (0 < f.ancillary_len))).map
          (fun f => f.ancillary_len * c)).sum := by
  induction l with
  | nil => simp
  | cons f rest ih =>
    have hrest := ih (fun g hg => hnn g (List.mem_cons_of_mem f hg))
    by_cases h : 0 < f.ancillary_len
    · simp only [List.map_cons, List.sum_cons, List.filter_cons, decide_eq_true_eq, h, if_true,
        List.map_cons, List.sum_cons, hrest]
    · have hz : f.ancillary_len = 0 := le_antisymm (by omega) (hnn f (List.mem_cons_self f rest))
      simp only [List.map_cons, List.sum_cons, List.filter_cons, decide_eq_true_eq, h, if_false,
        hrest, hz]
      simp

theorem sum_anc_toNat (l : List FrameInfo) (hnn : ∀ f ∈ l, 0 ≤ f.ancillary_len) :
    (l.map (·.ancillary_len)).sum
      = (((l.filter (fun f => decide (0 < f.ancillary_len))).map
          (fun f => f.ancillary_len.toNat)).sum : Nat) := by
  induction l with
  | nil => simp
  | cons f rest ih =>
    have hrest := ih (fun g hg => hnn g (List.mem_cons_of_mem f hg))
    by_cases h : 0 < f.ancillary_len
    · simp only [List.map_cons, List.sum_cons, List.filter_cons, decide_eq_true_eq, h, if_true,
        List.map_cons, List.sum_cons, hrest]
      push_cast
      rw [Int.toNat_of_nonneg (hnn f (List.mem_cons_self f rest))]
    · have hz : f.ancillary_len = 0 := le_antisymm (by omega) (hnn f (List.mem_cons_self f rest))
      simp only [List.map_cons, List.sum_cons, List.filter_cons, decide_eq_true_eq, h, if_false,
        hrest, hz]
      simp

theorem specCapacityBits_eq_positions (frames : List FrameInfo) (n step start_frame bpb : Nat)
    (hnn : ∀ f ∈ frames, 0 ≤ f.ancillary_len)
    (hinb : ∀ f ∈ frames, f.ancillary_idx + f.ancillary_len.toNat ≤ n) :
    specCapacityBits frames step start_frame bpb
      = ((bpb * (ancPositions frames n step start_frame).length : Nat) : Int) := by
  unfold specCapacityBits
  have hsel : ∀ f ∈ selectedFrames frames step start_frame, 0 ≤ f.ancillary_len :=
    fun f hf => hnn f ((selectedFrames_sublist frames step start_frame).subset hf)
  rw [sum_anc_toNat _ hsel, ancPositions_length frames n step start_frame hinb]
  have : visitFrames frames step start_frame
      = (selectedFrames frames step start_frame).filter
          (fun f => decide (0 < f.ancillary_len)) := rfl
  rw [← this]
  push_cast
  ring

theorem specCapacityBits_le_total (frames : List FrameInfo) (step start_frame bpb : Nat)
    (hnn : ∀ f ∈ frames, 0 ≤ f.ancillary_len) :
    specCapacityBits frames step start_frame bpb ≤ totalCapacityBits frames bpb := by
  rw [totalCapacityBits_eq]
  unfold specCapacityBits
  have hsel : ∀ f ∈ selectedFrames frames step start_frame, 0 ≤ f.ancillary_len :=
    fun f hf => hnn f ((selectedFrames_sublist frames step start_frame).subset hf)
  rw [mul_sum_map_anc, sum_map_filter_pos _ _ hsel]
  apply sum_le_sum_of_sublist_int
  · exact List.Sublist.map _ (List.Sublist.filter _ (selectedFrames_sublist frames step start_frame))
  · intro x hx
    rcases List.mem_map.mp hx with ⟨f, hf, rfl⟩
    have hpos : 0 < f.ancillary_len := by
      have := List.of_mem_filter hf
      simpa using this
    positivity

theorem byteLowBitsMSB_length (byte bpb : Nat) : (byteLowBitsMSB byte bpb).length = bpb := by
  simp [byteLowBitsMSB]

theorem readStream_length (mp3 : List Nat) (ps : List (Nat × Nat)) (bpb : Nat) :
    (readStream mp3 ps bpb).length = bpb * ps.length := by
  unfold readStream
  induction ps with
  | nil => simp
  | cons p rest ih =>
    rw [List.flatMap_cons, List.length_append, ih, byteLowBitsMSB_length, List.length_cons]
    ring

deriving instance DecidableEq for Except

/-- The result type of `embed_into_ancillary`'s successful branch; the
instance is spelled out because nested tuple instance search exceeds the
default synthesis size. -/
instance : DecidableEq (List Nat × Nat × List (Nat × Nat × List Bool)) :=
  fun a b => instDecidableEqProd a b

/-! ### Claim theorems -/

/-- C1 (amended).  Round-trip: for every carrier byte buffer `C`, frame
list with non-negative in-bounds ancillary regions whose traversed byte
positions are pairwise distinct (as holds for the scanner's output, also
after any permutation by the frame scrambler), and payload `P` whose bit
length is below `2^32` and satisfies
`32 + len(P) ≤ capacity(C, plan)` — the 32-bit length prefix counts
against the capacity — embedding with plan
`(bits_per_byte, step, start_frame)` succeeds and extracting from the
resulting buffer with the identical plan returns exactly `P`. -/
theorem c1_embed_extract_round_trip (C : List Nat) (frames : List FrameInfo) (P : List Bool)
    (bits_per_byte step start_frame : Nat)
    (hbpb : bits_per_byte = 1 ∨ bits_per_byte = 2 ∨ bits_per_byte = 3 ∨ bits_per_byte = 4)
    (hstep : 0 < step)
    (hP : P.length < 2 ^ 32)
    (hnodup : ((ancPositions frames C.length step start_frame).map Prod.snd).Nodup)
    (hwf : ∀ f ∈ frames,
      0 ≤ f.ancillary_len ∧ f.ancillary_idx + f.ancillary_len.toNat ≤ C.length)
    (hcap : (32 + P.length : Int) ≤ specCapacityBits frames step start_frame bits_per_byte) :
    (embed_into_ancillary C frames P bits_per_byte step start_frame).toOption.map
        (fun r => extract_from_ancillary r.1 frames bits_per_byte step start_frame none)
      = some P := by
  have hbpb8 : bits_per_byte ≤ 8 := by rcases hbpb with h | h | h | h <;> omega
  have hnn : ∀ f ∈ frames, 0 ≤ f.ancillary_len := fun f hf => (hwf f hf).1
  have hib : ∀ f ∈ frames, f.ancillary_idx + f.ancillary_len.toNat ≤ C.length :=
    fun f hf => (hwf f hf).2
  have hfull : (lengthBits32 P.length ++ P).length = 32 + P.length := by
    rw [List.length_append, lengthBits32_length P.length hP]
  have hspec := specCapacityBits_eq_positions frames C.length step start_frame bits_per_byte
    hnn hib
  have hcapN : (lengthBits32 P.length ++ P).length
      ≤ 0 + bits_per_byte * (ancPositions frames C.length step start_frame).length := by
    rw [hfull]
    have h1 : (32 + P.length : Int) ≤
        ((bits_per_byte * (ancPositions frames C.length step start_frame).length : Nat) : Int) :=
      hspec ▸ hcap
    have h2 : 32 + P.length
        ≤ bits_per_byte * (ancPositions frames C.length step start_frame).length := by
      exact_mod_cast h1
    omega
  have htot : ((lengthBits32 P.length ++ P).length : Int)
      ≤ totalCapacityBits frames bits_per_byte := by
    have h1 := specCapacityBits_le_total frames step start_frame bits_per_byte hnn
    rw [hfull]
    push_cast
    omega
  simp only [embed_into_ancillary, if_neg (not_not_intro hbpb), if_neg (not_lt.mpr htot)]
  simp only [Except.toOption, Option.map_some']
  refine congrArg some ?_
  rw [extract_from_ancillary_eq,
      embedLoop_length (lengthBits32 P.length ++ P) bits_per_byte
        (ancPositions frames C.length step start_frame) C 0 []]
  have hSlen : (readStream
      (embedLoop (lengthBits32 P.length ++ P) bits_per_byte C
        (ancPositions frames C.length step start_frame) 0 []).1
      (ancPositions frames C.length step start_frame) bits_per_byte).length
      = bits_per_byte * (ancPositions frames C.length step start_frame).length :=
    readStream_length _ _ _
  have hpref0 := embedLoop_readStream (lengthBits32 P.length ++ P) bits_per_byte hbpb8
    (ancPositions frames C.length step start_frame) C 0 [] hnodup
    (fun p hp => ancPositions_lt frames C.length step start_frame p hp) hcapN
  rw [Nat.sub_zero, List.drop_zero] at hpref0
  set S := readStream
      (embedLoop (lengthBits32 P.length ++ P) bits_per_byte C
        (ancPositions frames C.length step start_frame) 0 []).1
      (ancPositions frames C.length step start_frame) bits_per_byte with hSdef
  have hS32 : S.take 32 = lengthBits32 P.length := by
    have h1 : S.take 32 = (S.take (lengthBits32 P.length ++ P).length).take 32 := by
      rw [List.take_take]
      congr 1
      rw [hfull]
      omega
    rw [h1, hpref0]
    exact List.take_left' (lengthBits32_length P.length hP)
  have hL : bitsToNatMSB (S.take 32) = P.length := by
    rw [hS32, bitsToNatMSB_lengthBits32]
  have hge : 32 + P.length ≤ S.length := by
    rw [hSlen]
    omega
  rw [hL, if_neg (by omega : ¬ S.length < 32),
      if_neg (by rintro ⟨h1, h2⟩; omega)]
  have hdt : (S.drop 32).take P.length = (S.take (32 + P.length)).drop 32 := by
    rw [List.drop_take]
    congr 1
    omega
  rw [hdt, ← hfull, hpref0]
  exact List.drop_left' (lengthBits32_length P.length hP)

theorem c1_embed_extract_round_trip_witness :
    (([true] : List Bool).length < 2 ^ 32) ∧
    ((ancPositions [⟨0, 0, 0, 0, 0, 0, 0, 0, 0, 40, none⟩] (List.replicate 40 255).length 1
        0).map Prod.snd).Nodup ∧
    ((32 + ([true] : List Bool).length : Int)
      ≤ specCapacityBits [⟨0, 0, 0, 0, 0, 0, 0, 0, 0, 40, none⟩] 1 0 1) ∧
    (embed_into_ancillary (List.replicate 40 255) [⟨0, 0, 0, 0, 0, 0, 0, 0, 0, 40, none⟩]
        [true] 1 1 0).toOption.map
        (fun r => extract_from_ancillary r.1 [⟨0, 0, 0, 0, 0, 0, 0, 0, 0, 40, none⟩] 1 1 0 none)
      = some [true] :=
  ⟨by norm_num, by decide, by decide,
   c1_embed_extract_round_trip (List.replicate 40 255) [⟨0, 0, 0, 0, 0, 0, 0, 0, 0, 40, none⟩]
     [true] 1 1 0 (Or.inl rfl) (by decide) (by norm_num) (by decide) (by decide) (by decide)⟩

/-- C1, literal reading refuted: a payload whose bit length equals the
plan's capacity (so `len(P) ≤ capacity(C, plan)` holds) already fails to
embed, because the implicit 32-bit length prefix also counts against the
capacity pre-check: `embed` raises the capacity `ValueError` and produces
no output buffer at all. -/
theorem c1_counterexample :
    ((([true, true, true, true] : List Bool).length : Int)
      ≤ specCapacityBits [⟨0, 0, 0, 0, 0, 0, 0, 0, 0, 4, none⟩] 1 0 1) ∧
    embed_into_ancillary [0, 0, 0, 0] [⟨0, 0, 0, 0, 0, 0, 0, 0, 0, 4, none⟩]
        [true, true, true, true] 1 1 0
      = .error .capacityError := by decide

/-- C2 (amended).  The capacity pre-check of `embed_into_ancillary`
raises (and it raises before the writing loop touches any byte — the
error result carries no buffer) exactly when the full payload, 32-bit
length prefix included, exceeds the aggregate
`bits_per_byte * sum(ancillary_len over ALL frames with positive
ancillary_len)` — an aggregate that ignores `step` and `start_frame`, so
a passing pre-check does not guarantee a complete embedding for sparse
plans. -/
theorem c2_capacity_precheck (C : List Nat) (frames : List FrameInfo) (P : List Bool)
    (bits_per_byte step start_frame : Nat)
    (hbpb : bits_per_byte = 1 ∨ bits_per_byte = 2 ∨ bits_per_byte = 3 ∨ bits_per_byte = 4) :
    embed_into_ancillary C frames P bits_per_byte step start_frame = .error .capacityError
      ↔ totalCapacityBits frames bits_per_byte < ((lengthBits32 P.length ++ P).length : Int) := by
  simp only [embed_into_ancillary, if_neg (not_not_intro hbpb)]
  by_cases h : totalCapacityBits frames bits_per_byte
      < ((lengthBits32 P.length ++ P).length : Int)
  · simp [h]
  · simp [h]

theorem c2_capacity_precheck_witness :
    embed_into_ancillary [0, 0, 0, 0] [⟨0, 0, 0, 0, 0, 0, 0, 0, 0, 4, none⟩] [] 1 1 0
      = .error .capacityError :=
  (c2_capacity_precheck [0, 0, 0, 0] [⟨0, 0, 0, 0, 0, 0, 0, 0, 0, 4, none⟩] [] 1 1 0
    (Or.inl rfl)).mpr (by decide)

/-- C2, literal reading refuted: with `step = 2` the selected-frames
capacity is 4 bits, far below the 36-bit full payload, yet the pre-check
(which sums over ALL frames) passes: `embed` returns successfully, the
buffer IS mutated, and only 4 of the 36 payload bits were written — a
incomplete embedding that finished without raising. -/
theorem c2_counterexample :
    specCapacityBits [⟨0, 0, 0, 0, 0, 0, 0, 0, 0, 4, none⟩, ⟨1, 0, 0, 0, 0, 0, 0, 0, 4, 40, none⟩]
        2 0 1 = 4 ∧
    (embed_into_ancillary (List.replicate 44 255)
        [⟨0, 0, 0, 0, 0, 0, 0, 0, 0, 4, none⟩, ⟨1, 0, 0, 0, 0, 0, 0, 0, 4, 40, none⟩]
        [true, true, true, true] 1 2 0).isOk = true ∧
    (embed_into_ancillary (List.replicate 44 255)
        [⟨0, 0, 0, 0, 0, 0, 0, 0, 0, 4, none⟩, ⟨1, 0, 0, 0, 0, 0, 0, 0, 4, 40, none⟩]
        [true, true, true, true] 1 2 0).toOption.map (fun r => r.2.1) = some 4 ∧
    (embed_into_ancillary (List.replicate 44 255)
        [⟨0, 0, 0, 0, 0, 0, 0, 0, 0, 4, none⟩, ⟨1, 0, 0, 0, 0, 0, 0, 0, 4, 40, none⟩]
        [true, true, true, true] 1 2 0).toOption.map (fun r => r.1)
      ≠ some (List.replicate 44 255) := by decide

theorem ancPositions_mem_region (frames : List FrameInfo) (n step start_frame : Nat) :
    ∀ p ∈ ancPositions frames n step start_frame,
      ∃ f ∈ visitFrames frames step start_frame,
        f.ancillary_idx ≤ p.2 ∧ (p.2 : Int) < (f.ancillary_idx : Int) + f.ancillary_len := by
  intro p hp
  unfold ancPositions at hp
  rcases List.mem_flatMap.mp hp with ⟨f, hfmem, hmem⟩
  rcases List.mem_map.mp hmem with ⟨q, hq, rfl⟩
  refine ⟨f, hfmem, ?_⟩
  have hbase : q ∈ (List.range f.ancillary_len.toNat).map (fun b => f.ancillary_idx + b) :=
    (List.takeWhile_sublist _).subset hq
  rcases List.mem_map.mp hbase with ⟨b, hb, rfl⟩
  have hblt := List.mem_range.mp hb
  have hpos : 0 < f.ancillary_len := visitFrames_pos frames step start_frame f hfmem
  have htn : (f.ancillary_len.toNat : Int) = f.ancillary_len := Int.toNat_of_nonneg (by omega)
  refine ⟨by omega, ?_⟩
  push_cast
  omega

/-- C3.  Frame condition of `embed_into_ancillary`: on every successful
run the output buffer has the same length as the input, every byte whose
absolute index lies outside the union of the ancillary ranges
`[ancillary_idx, ancillary_idx + ancillary_len)` of the visited frames
keeps its original value, and within any touched byte only the low
`bits_per_byte` bits may change (the bits from position `bits_per_byte`
upward are preserved everywhere). -/
theorem c3_embed_frame_condition (C : List Nat) (frames : List FrameInfo) (P : List Bool)
    (bits_per_byte step start_frame : Nat)
    (hbpb : bits_per_byte = 1 ∨ bits_per_byte = 2 ∨ bits_per_byte = 3 ∨ bits_per_byte = 4)
    (hbytes : ∀ b ∈ C, b < 256)
    (r : List Nat × Nat × List (Nat × Nat × List Bool))
    (hok : embed_into_ancillary C frames P bits_per_byte step start_frame = .ok r) :
    r.1.length = C.length ∧
    (∀ j : Nat, (∀ f ∈ visitFrames frames step start_frame,
        ¬ (f.ancillary_idx ≤ j ∧ (j : Int) < (f.ancillary_idx : Int) + f.ancillary_len)) →
      r.1.getD j 0 = C.getD j 0) ∧
    (∀ j : Nat, r.1.getD j 0 >>> bits_per_byte = C.getD j 0 >>> bits_per_byte) := by
  have hbpb8 : bits_per_byte ≤ 8 := by rcases hbpb with h | h | h | h <;> omega
  simp only [embed_into_ancillary, if_neg (not_not_intro hbpb)] at hok
  by_cases hcapc : totalCapacityBits frames bits_per_byte
      < ((lengthBits32 P.length ++ P).length : Int)
  · rw [if_pos hcapc] at hok
    exact absurd hok (by simp)
  · rw [if_neg hcapc] at hok
    have hr := (Except.ok.inj hok).symm
    subst hr
    refine ⟨embedLoop_length _ _ _ _ _ _, ?_, ?_⟩
    · intro j hj
      apply embedLoop_getD_of_not_mem
      intro hmem
      rcases List.mem_map.mp hmem with ⟨p, hp, rfl⟩
      rcases ancPositions_mem_region frames C.length step start_frame p hp with ⟨f, hf, h1, h2⟩
      exact hj f hf ⟨h1, h2⟩
    · intro j
      exact embedLoop_shiftRight _ _ hbpb8 _ _ _ _ hbytes j

theorem c3_embed_frame_condition_witness :
    (∀ b ∈ ([255, 255, 255, 255, 255, 255, 255, 255] : List Nat), b < 256) ∧
    embed_into_ancillary [255, 255, 255, 255, 255, 255, 255, 255]
        [⟨0, 0, 0, 0, 0, 0, 0, 0, 0, 8, none⟩] [] 4 1 0
      = .ok (embedLoop (lengthBits32 (List.length ([] : List Bool)) ++ []) 4
          [255, 255, 255, 255, 255, 255, 255, 255]
          (ancPositions [⟨0, 0, 0, 0, 0, 0, 0, 0, 0, 8, none⟩] 8 1 0) 0 []) ∧
    ((embedLoop (lengthBits32 (List.length ([] : List Bool)) ++ []) 4
          [255, 255, 255, 255, 255, 255, 255, 255]
          (ancPositions [⟨0, 0, 0, 0, 0, 0, 0, 0, 0, 8, none⟩] 8 1 0) 0 []).1.length
        = ([255, 255, 255, 255, 255, 255, 255, 255] : List Nat).length ∧
      (∀ j : Nat, (∀ f ∈ visitFrames [⟨0, 0, 0, 0, 0, 0, 0, 0, 0, 8, none⟩] 1 0,
          ¬ (f.ancillary_idx ≤ j ∧ (j : Int) < (f.ancillary_idx : Int) + f.ancillary_len)) →
        (embedLoop (lengthBits32 (List.length ([] : List Bool)) ++ []) 4
          [255, 255, 255, 255, 255, 255, 255, 255]
          (ancPositions [⟨0, 0, 0, 0, 0, 0, 0, 0, 0, 8, none⟩] 8 1 0) 0 []).1.getD j 0
          = ([255, 255, 255, 255, 255, 255, 255, 255] : List Nat).getD j 0) ∧
      (∀ j : Nat, (embedLoop (lengthBits32 (List.length ([] : List Bool)) ++ []) 4
          [255, 255, 255, 255, 255, 255, 255, 255]
          (ancPositions [⟨0, 0, 0, 0, 0, 0, 0, 0, 0, 8, none⟩] 8 1 0) 0 []).1.getD j 0 >>> 4
          = ([255, 255, 255, 255, 255, 255, 255, 255] : List Nat).getD j 0 >>> 4)) :=
  ⟨by decide, by decide,
   c3_embed_frame_condition [255, 255, 255, 255, 255, 255, 255, 255]
     [⟨0, 0, 0, 0, 0, 0, 0, 0, 0, 8, none⟩] [] 4 1 0 (by norm_num) (by decide) _ (by decide)⟩

/-- C7 (amended).  Extraction protocol of `extract_from_ancillary` (with
`max_bits = None`, as every caller passes): along the shared traversal
order, the low bits are accumulated; after exactly 32 bits the big-endian
length field is decoded; extraction stops once that many further bits are
collected and returns only the payload slice (the length field is
consumed, not returned); if the ancillary bytes run out first it returns
the payload bits collected so far, truncated — except in the boundary
case where exactly the 32 length bits and no payload bit were collected
and the declared length is positive, in which case the whole 32-bit
length field itself is returned. -/
theorem c7_extraction_protocol (mp3 : List Nat) (frames : List FrameInfo)
    (bits_per_byte step start_frame : Nat) (hstep : 0 < step) :
    extract_from_ancillary mp3 frames bits_per_byte step start_frame none =
      (let S := readStream mp3 (ancPositions frames mp3.length step start_frame) bits_per_byte
       if S.length < 32 then S
       else if S.length = 32 ∧ 0 < bitsToNatMSB (S.take 32) then S
       else (S.drop 32).take (bitsToNatMSB (S.take 32))) := by
  rw [extract_from_ancillary_eq]

theorem c7_extraction_protocol_witness :
    0 < 1 ∧
    extract_from_ancillary [254, 255, 254] [⟨0, 0, 0, 0, 0, 0, 0, 0, 0, 3, none⟩] 1 1 0 none =
      (let S := readStream [254, 255, 254]
          (ancPositions [⟨0, 0, 0, 0, 0, 0, 0, 0, 0, 3, none⟩] 3 1 0) 1
       if S.length < 32 then S
       else if S.length = 32 ∧ 0 < bitsToNatMSB (S.take 32) then S
       else (S.drop 32).take (bitsToNatMSB (S.take 32))) :=
  ⟨by decide,
   c7_extraction_protocol [254, 255, 254] [⟨0, 0, 0, 0, 0, 0, 0, 0, 0, 3, none⟩] 1 1 0
     (by decide)⟩

/-- C7, literal reading refuted: a carrier whose traversal yields exactly
32 ancillary bits decoding to declared length 1.  The declared payload is
not satisfied (0 payload bits are available), yet extraction returns all
32 length-field bits — not the truncated (here: empty) payload the claim
describes. -/
theorem c7_counterexample :
    extract_from_ancillary (List.replicate 31 0 ++ [1])
        [⟨0, 0, 0, 0, 0, 0, 0, 0, 0, 32, none⟩] 1 1 0 none
      = List.replicate 31 false ++ [true] ∧
    (List.replicate 31 false ++ [true]).length = 32 ∧
    bitsToNatMSB (List.replicate 31 false ++ [true]) = 1 := by decide

theorem vignereCipherGo_length (key : List Nat) :
    ∀ (i : Nat) (X : List Nat), (vignereCipherGo key i X).length = X.length := by
  intro i X
  induction X generalizing i with
  | nil => rfl
  | cons c rest ih => simp [vignereCipherGo, ih]

theorem vignereDecipherGo_vignereCipherGo (key : List Nat) :
    ∀ (X : List Nat) (i : Nat), (∀ c ∈ X, c < 256) →
      vignereDecipherGo key i (vignereCipherGo key i X) = X := by
  intro X
  induction X with
  | nil => intro i _; rfl
  | cons c rest ih =>
    intro i hX
    simp only [vignereCipherGo, vignereDecipherGo]
    congr 1
    · have hc : c < 256 := hX c (List.mem_cons_self c rest)
      omega
    · exact ih (i + 1) (fun x hx => hX x (List.mem_cons_of_mem c hx))

/-- C5 (amended).  Cipher involution: for every byte string `X` and every
NON-EMPTY key `K`, `vignereDecipher (vignereCipher X K) K = X` — the
additive cipher adds key bytes modulo 256 cyclically and the decipher
subtracts them.  (An empty key makes Python raise `ZeroDivisionError` on
any non-empty input, so the involution cannot hold for every key.) -/
theorem c5_cipher_involution (X K : List Nat) (hK : K ≠ [])
    (hX : ∀ c ∈ X, c < 256) :
    (vignereCipher X K).bind (fun Y => vignereDecipher Y K) = some X := by
  have hguard : ¬ (K.length = 0 ∧ X ≠ []) := by
    rintro ⟨h1, _⟩
    exact hK (List.length_eq_zero.mp h1)
  have hguard2 : ¬ (K.length = 0 ∧ vignereCipherGo K 0 X ≠ []) := by
    rintro ⟨h1, _⟩
    exact hK (List.length_eq_zero.mp h1)
  unfold vignereCipher vignereDecipher
  rw [if_neg hguard]
  simp only [Option.bind_some, Option.some_bind]
  rw [if_neg hguard2]
  exact congrArg some (vignereDecipherGo_vignereCipherGo K X 0 hX)

theorem c5_cipher_involution_witness :
    (([5, 200] : List Nat) ≠ []) ∧
    (vignereCipher [10, 250, 0] [5, 200]).bind (fun Y => vignereDecipher Y [5, 200])
      = some [10, 250, 0] :=
  ⟨by decide, c5_cipher_involution [10, 250, 0] [5, 200] (by decide) (by decide)⟩

/-- C5, literal reading refuted: with the empty key `b""` (a legal Python
bytes value) and the one-byte input `b"\x00"`, `vignereCipher` raises
`ZeroDivisionError` (`key[i % 0]`), so deciphering its output cannot
return the input. -/
theorem c5_counterexample :
    (vignereCipher [0] []).bind (fun Y => vignereDecipher Y []) ≠ some [0] := by decide

/-- C4 (amended).  In the logical payload laid out by the orchestrator's
`encrypt`, the 4-byte big-endian length field has value equal to the
byte-length of the METADATA JSON ALONE (not of metadata plus secret), and
when a key is supplied the additive cipher is applied to the ENTIRE block
`length-field ++ metadata ++ secret` — the length field is prepended
before enciphering and is therefore encrypted along with the rest. -/
theorem c4_payload_layout (metadata_json embed_data : List Nat) :
    encryptCore false none metadata_json embed_data
      = .ok (packBE32 metadata_json.length ++ metadata_json ++ embed_data, none) ∧
    (∀ pw : List Nat, pw ≠ [] →
      encryptCore false (some pw) metadata_json embed_data
        = .ok (vignereCipherGo (generateKey pw) 0
            (packBE32 metadata_json.length ++ metadata_json ++ embed_data), none)) := by
  constructor
  · rfl
  · intro pw hpw
    have hlen : (generateKey pw).length = pw.length := vignereCipherGo_length builtin_key 0 pw
    have hgk : generateKey pw ≠ [] := by
      intro h
      apply hpw
      apply List.length_eq_zero.mp
      rw [← hlen, h]
      rfl
    simp [encryptCore, vignereCipher, hgk]

theorem c4_payload_layout_witness :
    (([97] : List Nat) ≠ []) ∧
    encryptCore false (some [97]) [123, 125] [65]
      = .ok (vignereCipherGo (generateKey [97]) 0
          (packBE32 ([123, 125] : List Nat).length ++ [123, 125] ++ [65]), none) :=
  ⟨by decide, (c4_payload_layout [123, 125] [65]).2 [97] (by decide)⟩

/-- C4, literal reading refuted, at metadata `b"{}"` and secret `b"A"`:
the plaintext length field is `[0,0,0,2]` = len(metadata), not
`[0,0,0,3]` = len(metadata ++ secret); and under key `b"a"` the first
four output bytes are `[202,202,202,204]` — the enciphered length field —
not the plaintext `[0,0,0,2]`, so the length field IS encrypted. -/
theorem c4_counterexample :
    (encryptCore false none [123, 125] [65]).map (fun r => r.1.take 4) = .ok [0, 0, 0, 2] ∧
    packBE32 (([123, 125] ++ [65] : List Nat)).length = [0, 0, 0, 3] ∧
    (([0, 0, 0, 2] : List Nat) ≠ [0, 0, 0, 3]) ∧
    (encryptCore false (some [97]) [123, 125] [65]).map (fun r => r.1.take 4)
      = .ok [202, 202, 202, 204] := by decide

/-- C6 (amended).  Seed derivation: `generateSeed` returns the square of
the sum of its input's byte values; the seed derived from a passphrase
through `generateKey` then `generateSeed` is one fixed value, so
`encrypt` (when random embedding is requested with a key) and `decrypt`
independently derive the identical integer from the same passphrase.
That seed serves ONLY as the frame-scrambler seed: the cipher's
derived-key step is keyed by the fixed built-in key
(`generateKey pw = vignereCipherGo builtin_key 0 pw`) and the payload
enciphering inside `encrypt` is keyed by that derived key — the seed
keys neither step. -/
theorem c6_seed_derivation (pw metadata_json embed_data : List Nat) (hpw : pw ≠ []) :
    generateSeed (generateKey pw) = (generateKey pw).sum ^ 2 ∧
    generateKey pw = vignereCipherGo builtin_key 0 pw ∧
    encryptCore true (some pw) metadata_json embed_data
      = .ok (vignereCipherGo (generateKey pw) 0
          (packBE32 metadata_json.length ++ metadata_json ++ embed_data),
          some (generateSeed (generateKey pw))) ∧
    decryptScrambleSeed (some pw) true = some (generateSeed (generateKey pw)) := by
  refine ⟨?_, rfl, ?_, rfl⟩
  · unfold generateSeed
    rw [List.sum_eq_foldl]
    ring
  · have hlen : (generateKey pw).length = pw.length := vignereCipherGo_length builtin_key 0 pw
    have hgk : generateKey pw ≠ [] := by
      intro h
      apply hpw
      apply List.length_eq_zero.mp
      rw [← hlen, h]
      rfl
    simp [encryptCore, vignereCipher, hgk]

theorem c6_seed_derivation_witness :
    (([97] : List Nat) ≠ []) ∧
    (generateSeed (generateKey [97]) = (generateKey [97]).sum ^ 2 ∧
      generateKey [97] = vignereCipherGo builtin_key 0 [97] ∧
      encryptCore true (some [97]) [123, 125] [65]
        = .ok (vignereCipherGo (generateKey [97]) 0
            (packBE32 ([123, 125] : List Nat).length ++ [123, 125] ++ [65]),
            some (generateSeed (generateKey [97]))) ∧
      decryptScrambleSeed (some [97]) true = some (generateSeed (generateKey [97]))) :=
  ⟨by decide, c6_seed_derivation [97] [123, 125] [65] (by decide)⟩

/-- C6, literal reading refuted: the seed does NOT key the cipher's
derived-key step.  The passphrases `[0, 1]` and `[1, 0]` derive the SAME
seed (both key-byte sums are 214, so both seeds are 214²), yet their
derived keys differ and `encrypt` produces DIFFERENT ciphertexts for the
same plaintext — impossible if the seed keyed the enciphering.  The
derived-key step is keyed by the fixed built-in key instead, and the
seed's only use is `random.seed` for the frame scrambler. -/
theorem c6_counterexample :
    generateSeed (generateKey [0, 1]) = generateSeed (generateKey [1, 0]) ∧
    generateKey [0, 1] ≠ generateKey [1, 0] ∧
    encryptCore false (some [0, 1]) [123, 125] [65]
      ≠ encryptCore false (some [1, 0]) [123, 125] [65] := by decide

/-- C10.  Calling the orchestrator's `encrypt` with
`config['randomEmbedding'] = True` but `config['encryptionKey'] = None`
raises an uncaught `NameError` before the embedding call: the
scramble-seed line `generateSeed(generated_key)` references
`generated_key`, which is only assigned when an encryption key is
supplied.  Random embedding without a key therefore never produces an
embedded output. -/
theorem c10_random_embedding_requires_key (metadata_json embed_data : List Nat) :
    encryptCore true none metadata_json embed_data = .error .nameError := rfl

/-- C8.  Frame-size computation: every 4-byte header that `parse_header`
accepts (the scanner has already checked the sync pattern; acceptance
requires the bitrate and sample-rate table entries to be non-zero) gets
`frame_size = floor(coefficient * bitrate / sample_rate) + padding` with
coefficient 144 for Layer III MPEG-version-1, 72 for other Layer III, and
144 uniformly for non-Layer-III; and a synced header whose bitrate or
sample-rate index maps to zero/reserved is treated as a non-frame — the
scanner advances exactly one byte. -/
theorem c8_frame_size_and_reject :
    (∀ (header : List Nat) (info : HeaderInfo), parse_header header = some info →
      (info.frame_size
        = (if info.layer = 3 ∧ info.mpeg_version = 1 then 144
           else if info.layer = 3 then 72 else 144) * info.bitrate / info.samplerate
          + ((header.getD 2 0 >>> 1) &&& 1)
      ∧ info.bitrate ≠ 0 ∧ info.samplerate ≠ 0)) ∧
    (∀ (mp3 : List Nat) (fuel i frame_idx : Nat),
      i < mp3.length → i + 4 ≤ mp3.length →
      is_frame_sync ((mp3.drop i).take 4) = true →
      parse_header ((mp3.drop i).take 4) = none →
      scanGo mp3 (fuel + 1) i frame_idx = scanGo mp3 fuel (i + 1) frame_idx) := by
  constructor
  · intro header info h
    simp only [parse_header] at h
    by_cases h4 : header.length < 4
    · rw [if_pos h4] at h
      exact absurd h (by simp)
    · rw [if_neg h4] at h
      by_cases hl0 : (header.getD 1 0 >>> 1) &&& 0x03 = 0
      · rw [if_pos hl0] at h
        exact absurd h (by simp)
      · rw [if_neg hl0] at h
        by_cases hbz : ((if ((if (header.getD 1 0 >>> 3) &&& 0x03 = 3 then 1 else 2) = 1 ∧
              (if (header.getD 1 0 >>> 1) &&& 0x03 = 1 then 3
               else if (header.getD 1 0 >>> 1) &&& 0x03 = 2 then 2 else 1) = 3) then
              bitrate_table_v1_l3.getD ((header.getD 2 0 >>> 4) &&& 0x0F) 0
            else bitrate_table_v2_l3.getD ((header.getD 2 0 >>> 4) &&& 0x0F) 0) * 1000 = 0 ∨
            (if (if (header.getD 1 0 >>> 3) &&& 0x03 = 3 then 1 else 2) = 1 then
              samplerate_table_v1.getD ((header.getD 2 0 >>> 2) &&& 0x03) 0
            else samplerate_table_v2.getD ((header.getD 2 0 >>> 2) &&& 0x03) 0) = 0)
        · rw [if_pos hbz] at h
          exact absurd h (by simp)
        · rw [if_neg hbz] at h
          have hinfo := (Option.some.inj h).symm
          subst hinfo
          push_neg at hbz
          refine ⟨?_, hbz.1, hbz.2⟩
          by_cases hl1 : (header.getD 1 0 >>> 1) &&& 0x03 = 1
          · by_cases hv3 : (header.getD 1 0 >>> 3) &&& 0x03 = 3
            · simp only [hl1, hv3]
              norm_num
            · simp only [hl1, hv3]
              norm_num
          · by_cases hl2 : (header.getD 1 0 >>> 1) &&& 0x03 = 2
            · simp only [hl1, hl2]
              norm_num
            · simp only [hl1, hl2]
              norm_num
  · intro mp3 fuel i frame_idx hi hi4 hsync hparse
    simp only [scanGo]
    rw [if_neg (by omega), if_neg (by omega), if_neg (not_not_intro hsync), hparse]

theorem c8_frame_size_and_reject_witness :
    (parse_header [255, 251, 144, 0] = some ⟨417, 32, 1, 3, 0, 128000, 44100⟩ ∧
      ((417 : Nat)
          = (if (3 : Nat) = 3 ∧ (1 : Nat) = 1 then 144
             else if (3 : Nat) = 3 then 72 else 144) * 128000 / 44100
            + ((([255, 251, 144, 0] : List Nat).getD 2 0 >>> 1) &&& 1)
        ∧ (128000 : Nat) ≠ 0 ∧ (44100 : Nat) ≠ 0)) ∧
    scanGo [255, 251, 240, 0] 6 0 0 = scanGo [255, 251, 240, 0] 5 1 0 :=
  ⟨⟨by decide,
    c8_frame_size_and_reject.1 [255, 251, 144, 0] ⟨417, 32, 1, 3, 0, 128000, 44100⟩ (by decide)⟩,
   c8_frame_size_and_reject.2 [255, 251, 240, 0] 5 0 0 (by decide) (by decide) (by decide)
     (by decide)⟩

/-- C9.  Side-info fail-soft: whenever a frame is accepted by the scanner
but `parse_side_info_fields` fails on its side-information region (the
`try/except` turns any bit shortfall into `None`), the scan does not
abort: the frame is recorded with zero estimated main-data bytes, the
ancillary region falls back to the whole region after header and side
info (`ancillary_idx = main_data_idx`,
`ancillary_len = frame_size - 4 - side_info_size`), and scanning resumes
at the next frame, all other frames being unaffected. -/
theorem c9_side_info_fail_soft (mp3 : List Nat) (fuel i frame_idx : Nat) (info : HeaderInfo)
    (hi : i < mp3.length) (hi4 : i + 4 ≤ mp3.length)
    (hsync : is_frame_sync ((mp3.drop i).take 4) = true)
    (hparse : parse_header ((mp3.drop i).take 4) = some info)
    (hfit : i + info.frame_size ≤ mp3.length)
    (hside : parse_side_info_fields ((mp3.drop (i + 4)).take info.side_info_size) = none) :
    scanGo mp3 (fuel + 1) i frame_idx
      = { frame_index := frame_idx, header_idx := i, frame_start := i,
          frame_size := info.frame_size, side_info_idx := i + 4,
          side_info_size := info.side_info_size,
          main_data_idx := i + 4 + info.side_info_size,
          estimated_main_bytes := 0, ancillary_idx := i + 4 + info.side_info_size,
          ancillary_len := ((i + info.frame_size : Nat) : Int)
            - ((i + 4 + info.side_info_size : Nat) : Int),
          parsed_side_info := none } :: scanGo mp3 fuel (i + info.frame_size) (frame_idx + 1) := by
  have h1 : ¬ mp3.length ≤ i := by omega
  have h2 : ¬ mp3.length < i + 4 := by omega
  have h3 : ¬ mp3.length < i + info.frame_size := by omega
  simp only [scanGo, if_neg h1, if_neg h2, if_neg (not_not_intro hsync), hparse, if_neg h3,
    hside]
  norm_num

set_option maxRecDepth 8000 in
theorem c9_side_info_fail_soft_witness :
    parse_side_info_fields
        ((([255, 243, 24, 192] ++ List.replicate 17 255 ++ List.replicate 15 0).drop
            (0 + 4)).take 17)
      = none ∧
    scanGo ([255, 243, 24, 192] ++ List.replicate 17 255 ++ List.replicate 15 0) 41 0 0
      = { frame_index := 0, header_idx := 0, frame_start := 0, frame_size := 36,
          side_info_idx := 4, side_info_size := 17, main_data_idx := 21,
          estimated_main_bytes := 0, ancillary_idx := 21,
          ancillary_len := ((0 + 36 : Nat) : Int) - ((0 + 4 + 17 : Nat) : Int),
          parsed_side_info := none }
        :: scanGo ([255, 243, 24, 192] ++ List.replicate 17 255 ++ List.replicate 15 0) 40
            (0 + 36) (0 + 1) :=
  ⟨by decide,
   c9_side_info_fail_soft ([255, 243, 24, 192] ++ List.replicate 17 255 ++ List.replicate 15 0)
     40 0 0 ⟨36, 17, 2, 3, 3, 8000, 16000⟩ (by decide) (by decide) (by decide) (by decide)
     (by decide) (by decide)⟩
